import Mathlib

/-!
Formal model of the GroupWeave contest core: the staking ledger and payout
engine behind the voting (poll) and content-bounty contracts.  The Rust
contract sources are not part of this tree; the repository carries their
documentation (security report, audit, contract READMEs).  The definitions
below are therefore modelled from the specification of the contest core,
with the concrete numeric limits taken from the repository's documentation.
-/

namespace GroupWeave

/-- Opaque account handle; identifiers are strings. -/
abbrev Account := String

/-- Error taxonomy of the contest core.

Modelled from the spec: `ValidationError` (bad input shape/bounds),
`NotFoundError` (unknown contest/option/record), `StateError` (wrong
lifecycle phase), `AuthorizationError` (caller lacks required role),
`ComputationError` (payout arithmetic would exceed safe bounds). -/
inductive CoreError where
  | validation
  | notFound
  | state
  | authorization
  | computation
  deriving DecidableEq, Repr

/-- Largest value representable in the Rust `u128` amounts used on chain. -/
def U128_MAX : Nat := 2 ^ 128 - 1

/-- Maximum number of options per contest (documented limit). -/
def MAX_OPTIONS_PER_CONTEST : Nat := 100

/-- Maximum contest duration, one year in minutes (documented limit). -/
def MAX_DURATION_MINUTES : Nat := 525600

/-- Nanoseconds in one minute; timestamps are nanoseconds since epoch. -/
def NANOS_PER_MINUTE : Nat := 60000000000

/-- Participant cap of the voting contract: 100 million distinct voters. -/
def MAX_VOTERS_PER_POLL : Nat := 100000000

/-- Participant cap of the content bounty market: 150 participants. -/
def MAX_PARTICIPANTS_PER_BOUNTY : Nat := 150

/-- Global administrative configuration record (owner, platform treasury,
fee rate, financial bounds, participant cap), passed explicitly wherever
access control or fee computation is evaluated.

Modelled from the spec: the global administrative singleton of §9 together
with the Resource Limiter bounds of §4.5. -/
structure Config where
  owner : Account
  platform : Account
  platformFeeBps : Nat
  minReward : Nat
  maxReward : Nat
  participantCap : Nat
  deriving DecidableEq, Repr

/-- A single active stake of one participant in one contest.

Modelled from the spec: `StakeEntry`: `(account, contest_id) →
\x7boption_index, amount, staked_at\x7d`, at most one per pair. -/
structure StakeEntry where
  optionIndex : Nat
  amount : Nat
  stakedAt : Nat
  deriving DecidableEq, Repr

/-- A contest (poll or bounty; structurally identical).

Modelled from the spec: the Contest entity of §3, with `balance` the
distributable balance escrowed in the contest (base prize plus stakes),
zeroed at payout. -/
structure Contest where
  creator : Account
  optionTotals : List Nat
  basePrize : Nat
  creatorSharePct : Nat
  backerSharePct : Nat
  isPublic : Bool
  createdAt : Nat
  endsAt : Nat
  isClosed : Bool
  payoutDone : Bool
  winnerIndex : Option Nat
  totalParticipants : Nat
  balance : Nat
  deriving DecidableEq, Repr

/-- Persisted state of one contest: the contest record, its stake registry
(one entry per account) and its whitelist. -/
structure ContestState where
  contest : Contest
  stakes : List (Account × StakeEntry)
  whitelist : List Account
  deriving DecidableEq, Repr

/-- `u128` addition with overflow check: reject rather than wrap. -/
def checkedAdd (a b : Nat) : Option Nat :=
  if a + b ≤ U128_MAX then some (a + b) else none

/-- `u128` multiplication with overflow check: reject rather than wrap. -/
def checkedMul (a b : Nat) : Option Nat :=
  if a * b ≤ U128_MAX then some (a * b) else none

/-- Sum of the amounts of a payment list. -/
def sumAmounts (l : List (Account × Nat)) : Nat :=
  (l.map Prod.snd).sum

/-- Point lookup in the stake registry. -/
def findStake : List (Account × StakeEntry) → Account → Option StakeEntry
  | [], _ => none
  | (b, e) :: rest, a => if b = a then some e else findStake rest a

/-- Replace-on-switch: replace the caller's entry, or append a fresh one. -/
def setStake : List (Account × StakeEntry) → Account → StakeEntry →
    List (Account × StakeEntry)
  | [], a, e => [(a, e)]
  | (b, f) :: rest, a, e =>
    if b = a then (b, e) :: rest else (b, f) :: setStake rest a e

/-- Total amount staked on option `i` according to the stake registry. -/
def sumOn (stakes : List (Account × StakeEntry)) (i : Nat) : Nat :=
  (stakes.map (fun p => if p.2.optionIndex = i then p.2.amount else 0)).sum

/-- The backers of option `w` with their stake amounts, in registry order. -/
def winnerStakers (stakes : List (Account × StakeEntry)) (w : Nat) :
    List (Account × Nat) :=
  (stakes.filter (fun p => p.2.optionIndex = w)).map (fun p => (p.1, p.2.amount))

/-- Add an amount to an account's payment, aggregating with any existing
payment to the same account. -/
def addPayment (a : Account) (n : Nat) : List (Account × Nat) → List (Account × Nat)
  | [] => [(a, n)]
  | (b, m) :: rest => if b = a then (b, m + n) :: rest else (b, m) :: addPayment a n rest

/-- Deduplicate a payment list: a recipient appearing multiple times
receives one aggregated payment, never two. -/
def aggregate (l : List (Account × Nat)) : List (Account × Nat) :=
  l.foldl (fun acc p => addPayment p.1 p.2 acc) []

/-- Total amount a payment list assigns to account `a`. -/
def findAmt (l : List (Account × Nat)) (a : Account) : Nat :=
  (l.map (fun p => if p.1 = a then p.2 else 0)).sum

/-- Index of the greatest element; ties resolve to the lowest index. -/
def argmaxIdx : List Nat → Nat
  | [] => 0
  | x :: xs =>
    let j := argmaxIdx xs
    if x < xs.getD j 0 then j + 1 else 0

/-- Per-backer shares `pool * stake / total`, with the multiplication
overflow-checked; `none` when any product would exceed `u128`. -/
def sharesChecked (pool total : Nat) : List (Account × Nat) →
    Option (List (Account × Nat))
  | [] => some []
  | (a, s) :: rest =>
    match checkedMul pool s, sharesChecked pool total rest with
    | some numer, some tail => some ((a, numer / total) :: tail)
    | _, _ => none

/-- The Payout Engine.

Modelled from the spec (§4.3), the close_poll / close_bounty payout step
being absent from this tree: `total_pool = base_prize + sum(option_totals)`;
`fee_amount = total_pool * platform_fee_bps / 10000` with overflow-checked
multiplication; `net = total_pool - fee_amount`; if the winning option has
zero stake the entire `net` goes to the creator with no backer computation;
otherwise `creator_amount = net * creator_share_pct / 100`, `backer_pool =
net - creator_amount`, each backer receives `backer_pool * their_stake /
option_totals[winner_index]` by integer division, and the rounding
remainder goes to the creator (the single deterministically chosen
recipient, as documented in the audit's refund analysis).  Recipients are
deduplicated into one aggregated payment each. -/
def computePayout (optionTotals : List Nat) (winnerIndex : Nat)
    (basePrize creatorSharePct backerSharePct platformFeeBps : Nat)
    (stakerList : List (Account × Nat)) (creator : Account) :
    Except CoreError (Nat × List (Account × Nat)) :=
  match checkedAdd basePrize optionTotals.sum with
  | none => .error .computation
  | some totalPool =>
    match checkedMul totalPool platformFeeBps with
    | none => .error .computation
    | some feeNumer =>
      let feeAmount := feeNumer / 10000
      let net := totalPool - feeAmount
      let winnerTotal := optionTotals.getD winnerIndex 0
      if winnerTotal = 0 then
        .ok (feeAmount, aggregate [(creator, net)])
      else
        match checkedMul net creatorSharePct with
        | none => .error .computation
        | some creatorNumer =>
          let creatorAmount := creatorNumer / 100
          let backerPool := net - creatorAmount
          match sharesChecked backerPool winnerTotal stakerList with
          | none => .error .computation
          | some backerShares =>
            let remainder := backerPool - sumAmounts backerShares
            .ok (feeAmount,
              aggregate ((creator, creatorAmount) :: backerShares ++ [(creator, remainder)]))

/-- Creation parameters of a contest. -/
structure CreateParams where
  optionCount : Nat
  durationMinutes : Nat
  basePrize : Nat
  creatorSharePct : Nat
  backerSharePct : Nat
  isPublic : Bool
  deriving DecidableEq, Repr

/-- Ledger Core `create`.

Modelled from the spec (§4.1, §4.5), create_poll / create_content_bounty
being absent from this tree: validates option count ∈ [2, 100], duration
∈ (0, 1 year], reward/base-prize zero or within the configured financial
bounds, shares summing to 100, and attached value covering the base prize
plus storage; fails with `ValidationError` on any bound violation and
never partially creates state; otherwise persists a zeroed Contest. -/
def create (cfg : Config) (caller : Account) (now : Nat) (p : CreateParams)
    (attached storageCost : Nat) : Except CoreError ContestState :=
  if p.optionCount < 2 ∨ MAX_OPTIONS_PER_CONTEST < p.optionCount then .error .validation
  else if p.durationMinutes = 0 ∨ MAX_DURATION_MINUTES < p.durationMinutes then
    .error .validation
  else if p.basePrize ≠ 0 ∧ (p.basePrize < cfg.minReward ∨ cfg.maxReward < p.basePrize) then
    .error .validation
  else if p.creatorSharePct + p.backerSharePct ≠ 100 then .error .validation
  else if attached < p.basePrize + storageCost then .error .validation
  else .ok
    { contest :=
      { creator := caller
        optionTotals := List.replicate p.optionCount 0
        basePrize := p.basePrize
        creatorSharePct := p.creatorSharePct
        backerSharePct := p.backerSharePct
        isPublic := p.isPublic
        createdAt := now
        endsAt := now + p.durationMinutes * NANOS_PER_MINUTE
        isClosed := false
        payoutDone := false
        winnerIndex := none
        totalParticipants := 0
        balance := p.basePrize }
      stakes := []
      whitelist := [] }

/-- Ledger Core `stake` (the `vote` / `stake_on_submission` operation).

Modelled from the spec (§4.1), vote / stake_on_submission being absent
from this tree: fails with `NotFoundError` on an unknown option, with
`StateError` when closed or expired, with `AuthorizationError` when the
contest is private and the caller not whitelisted; a caller with an
existing entry switches atomically (the old option's total is decremented
by the prior amount before the new option's total is incremented); a
first-time caller increments `total_participants`, rejected with
`ValidationError` when the participant cap is reached. -/
def stake (cfg : Config) (st : ContestState) (caller : Account) (now : Nat)
    (optionIndex amount : Nat) : Except CoreError ContestState :=
  if st.contest.optionTotals.length ≤ optionIndex then .error .notFound
  else if st.contest.isClosed = true ∨ st.contest.endsAt ≤ now then .error .state
  else if st.contest.isPublic = false ∧ caller ∉ st.whitelist then .error .authorization
  else if amount = 0 then .error .validation
  else
    match findStake st.stakes caller with
    | some prior =>
      let t1 := st.contest.optionTotals.set prior.optionIndex
        (st.contest.optionTotals.getD prior.optionIndex 0 - prior.amount)
      let t2 := t1.set optionIndex (t1.getD optionIndex 0 + amount)
      .ok { st with
        contest := { st.contest with
          optionTotals := t2
          balance := st.contest.balance - prior.amount + amount }
        stakes := setStake st.stakes caller ⟨optionIndex, amount, now⟩ }
    | none =>
      if cfg.participantCap ≤ st.contest.totalParticipants then .error .validation
      else .ok { st with
        contest := { st.contest with
          optionTotals := st.contest.optionTotals.set optionIndex
            (st.contest.optionTotals.getD optionIndex 0 + amount)
          balance := st.contest.balance + amount
          totalParticipants := st.contest.totalParticipants + 1 }
        stakes := st.stakes ++ [(caller, ⟨optionIndex, amount, now⟩)] }

/-- `whitelist_add`, creator-only. -/
def whitelistAdd (st : ContestState) (caller account : Account) :
    Except CoreError ContestState :=
  if caller = st.contest.creator then .ok { st with whitelist := account :: st.whitelist }
  else .error .authorization

/-- `whitelist_remove`, creator-only. -/
def whitelistRemove (st : ContestState) (caller account : Account) :
    Except CoreError ContestState :=
  if caller = st.contest.creator then
    .ok { st with whitelist := st.whitelist.filter (fun b => b ≠ account) }
  else .error .authorization

/-- One micro-step of the closure sequence: a persisted state update or
the dispatch of one external transfer. -/
inductive CloseEvent where
  | setWinner (w : Nat)
  | setPayoutDone
  | zeroBalance
  | setClosed
  | transfer (a : Account) (n : Nat)
  deriving DecidableEq, Repr

/-- Apply one closure micro-step: state updates mutate the persisted
contest; a transfer leaves state untouched and dispatches funds. -/
def applyEvent (st : ContestState) : CloseEvent → ContestState × List (Account × Nat)
  | .setWinner w => ({ st with contest := { st.contest with winnerIndex := some w } }, [])
  | .setPayoutDone => ({ st with contest := { st.contest with payoutDone := true } }, [])
  | .zeroBalance => ({ st with contest := { st.contest with balance := 0 } }, [])
  | .setClosed => ({ st with contest := { st.contest with isClosed := true } }, [])
  | .transfer a n => (st, [(a, n)])

/-- Fold one closure micro-step into an accumulated (state, dispatched
transfers) pair. -/
def stepEv (acc : ContestState × List (Account × Nat)) (e : CloseEvent) :
    ContestState × List (Account × Nat) :=
  ((applyEvent acc.1 e).1, acc.2 ++ (applyEvent acc.1 e).2)

/-- Run a closure micro-step sequence from a state, collecting the
dispatched transfers in order. -/
def runEvents (st : ContestState) (evs : List CloseEvent) :
    ContestState × List (Account × Nat) :=
  evs.foldl stepEv (st, [])

/-- The closure sequence of `close` (close_poll / close_bounty).

Modelled from the spec (§4.1, §5), the close operation being absent from
this tree: creator-or-owner only (`AuthorizationError` otherwise, before
any state is touched); `StateError` if already closed or not yet expired;
determines the winning option as the one with the greatest aggregate
stake, ties resolving deterministically to the lowest option index;
delegates amounts to the Payout Engine; then (a) sets `payout_done` and
zeroes the distributable balance **before** (b) issuing any transfer, and
finally (c) sets `is_closed`.  The platform fee is transferred to the
platform treasury when nonzero. -/
def closeTrace (cfg : Config) (st : ContestState) (caller : Account) (now : Nat) :
    Except CoreError (List CloseEvent) :=
  if caller = st.contest.creator ∨ caller = cfg.owner then
    if st.contest.isClosed = true ∨ st.contest.payoutDone = true then .error .state
    else if now < st.contest.endsAt then .error .state
    else
      match computePayout st.contest.optionTotals (argmaxIdx st.contest.optionTotals)
          st.contest.basePrize st.contest.creatorSharePct st.contest.backerSharePct
          cfg.platformFeeBps
          (winnerStakers st.stakes (argmaxIdx st.contest.optionTotals))
          st.contest.creator with
      | .error e => .error e
      | .ok (feeAmount, outs) =>
        .ok ([.setWinner (argmaxIdx st.contest.optionTotals), .setPayoutDone,
            .zeroBalance] ++
          (((if 0 < feeAmount then [(cfg.platform, feeAmount)] else []) ++ outs).map
            (fun p => .transfer p.1 p.2)) ++ [.setClosed])
  else .error .authorization

/-- Ledger Core `close`: run the closure sequence atomically, returning
the persisted final state and the dispatched transfers in order. -/
def close (cfg : Config) (st : ContestState) (caller : Account) (now : Nat) :
    Except CoreError (ContestState × List (Account × Nat)) :=
  (closeTrace cfg st caller now).map (fun tr => runEvents st tr)

/-- A mutating operation on an existing contest. -/
inductive Op where
  | stakeOp (caller : Account) (now optionIndex amount : Nat)
  | closeOp (caller : Account) (now : Nat)
  | whitelistAddOp (caller account : Account)
  | whitelistRemoveOp (caller account : Account)
  deriving DecidableEq, Repr

/-- Execute one operation, returning the new state and any dispatched
transfers; a failing operation dispatches nothing and leaves no state. -/
def stepOp (cfg : Config) (st : ContestState) : Op →
    Except CoreError (ContestState × List (Account × Nat))
  | .stakeOp caller now i a => (stake cfg st caller now i a).map (fun s => (s, []))
  | .closeOp caller now => close cfg st caller now
  | .whitelistAddOp caller account => (whitelistAdd st caller account).map (fun s => (s, []))
  | .whitelistRemoveOp caller account =>
    (whitelistRemove st caller account).map (fun s => (s, []))

/-- States reachable from a successful creation by successful operations. -/
inductive Reachable (cfg : Config) : ContestState → Prop where
  | created (caller : Account) (now : Nat) (p : CreateParams)
      (attached storageCost : Nat) (st : ContestState) :
      create cfg caller now p attached storageCost = .ok st → Reachable cfg st
  | step (st : ContestState) (op : Op) (st' : ContestState)
      (tr : List (Account × Nat)) : Reachable cfg st →
      stepOp cfg st op = .ok (st', tr) → Reachable cfg st'

/-- The stake registry holds at most one entry per account. -/
def keysNodup (stakes : List (Account × StakeEntry)) : Prop :=
  (stakes.map Prod.fst).Nodup

/-- The ledger invariants of the contest core (§3). -/
structure Inv (st : ContestState) : Prop where
  nodupKeys : keysNodup st.stakes
  idxBound : ∀ p ∈ st.stakes, p.2.optionIndex < st.contest.optionTotals.length
  totalsEq : ∀ i, st.contest.optionTotals.getD i 0 = sumOn st.stakes i
  payoutZero : st.contest.payoutDone = true →
    st.contest.balance = 0 ∧ st.contest.isClosed = true
  winnerUnset : st.contest.isClosed = false → st.contest.winnerIndex = none

/-! ### List helpers -/

theorem getD_set_self (l : List Nat) (j : Nat) (v : Nat) (h : j < l.length) :
    (l.set j v).getD j 0 = v := by
  induction l generalizing j with
  | nil => simp at h
  | cons x xs ih =>
    cases j with
    | zero => simp
    | succ j => simpa using ih j (by simpa using h)

theorem getD_set_ne (l : List Nat) (i j : Nat) (v : Nat) (h : i ≠ j) :
    (l.set j v).getD i 0 = l.getD i 0 := by
  induction l generalizing i j with
  | nil => simp
  | cons x xs ih =>
    cases j with
    | zero =>
      cases i with
      | zero => exact absurd rfl h
      | succ i => simp
    | succ j =>
      cases i with
      | zero => simp
      | succ i => simpa using ih i j (by omega)

theorem getD_replicate_zero (n i : Nat) : (List.replicate n 0).getD i 0 = 0 := by
  induction n generalizing i with
  | zero => simp
  | succ n ih =>
    cases i with
    | zero => simp [List.replicate_succ]
    | succ i => simp [List.replicate_succ, ih i]

/-! ### Payment aggregation -/

theorem sumAmounts_addPayment (a : Account) (n : Nat) (l : List (Account × Nat)) :
    sumAmounts (addPayment a n l) = sumAmounts l + n := by
  induction l with
  | nil => simp [addPayment, sumAmounts]
  | cons p rest ih =>
    obtain ⟨b, m⟩ := p
    by_cases hb : b = a
    · simp [addPayment, hb, sumAmounts]
      omega
    · simp only [addPayment, if_neg hb, sumAmounts, List.map_cons, List.sum_cons] at *
      omega

theorem findAmt_addPayment (a : Account) (n : Nat) (l : List (Account × Nat)) (c : Account) :
    findAmt (addPayment a n l) c = findAmt l c + (if a = c then n else 0) := by
  induction l with
  | nil => simp [addPayment, findAmt]
  | cons p rest ih =>
    obtain ⟨b, m⟩ := p
    by_cases hb : b = a
    · subst hb
      by_cases hc : b = c
      · simp [addPayment, findAmt, hc]
        omega
      · simp [addPayment, findAmt, hc]
    · by_cases hc : b = c
      · simp only [addPayment, if_neg hb, findAmt, List.map_cons, List.sum_cons,
          if_pos hc] at *
        omega
      · simp only [addPayment, if_neg hb, findAmt, List.map_cons, List.sum_cons,
          if_neg hc] at *
        omega

theorem foldl_addPayment_sum (l : List (Account × Nat)) :
    ∀ acc : List (Account × Nat),
      sumAmounts (l.foldl (fun acc p => addPayment p.1 p.2 acc) acc) =
        sumAmounts acc + sumAmounts l := by
  induction l with
  | nil => intro acc; simp [sumAmounts]
  | cons p rest ih =>
    intro acc
    simp only [List.foldl_cons]
    rw [ih, sumAmounts_addPayment]
    simp [sumAmounts]
    omega

theorem sumAmounts_aggregate (l : List (Account × Nat)) :
    sumAmounts (aggregate l) = sumAmounts l := by
  have := foldl_addPayment_sum l []
  simpa [aggregate, sumAmounts] using this

theorem foldl_addPayment_findAmt (l : List (Account × Nat)) (c : Account) :
    ∀ acc : List (Account × Nat),
      findAmt (l.foldl (fun acc p => addPayment p.1 p.2 acc) acc) c =
        findAmt acc c + findAmt l c := by
  induction l with
  | nil => intro acc; simp [findAmt]
  | cons p rest ih =>
    intro acc
    simp only [List.foldl_cons]
    rw [ih, findAmt_addPayment]
    simp [findAmt]
    omega

theorem findAmt_aggregate (l : List (Account × Nat)) (c : Account) :
    findAmt (aggregate l) c = findAmt l c := by
  have := foldl_addPayment_findAmt l c []
  simpa [aggregate, findAmt] using this

theorem findAmt_append (l1 l2 : List (Account × Nat)) (c : Account) :
    findAmt (l1 ++ l2) c = findAmt l1 c + findAmt l2 c := by
  simp [findAmt]

theorem findAmt_not_mem (l : List (Account × Nat)) (c : Account)
    (h : c ∉ l.map Prod.fst) : findAmt l c = 0 := by
  induction l with
  | nil => simp [findAmt]
  | cons p rest ih =>
    obtain ⟨b, m⟩ := p
    simp only [List.map_cons, List.mem_cons] at h
    push_neg at h
    have hb : ¬b = c := fun hh => h.1 hh.symm
    simp only [findAmt, List.map_cons, List.sum_cons, if_neg hb]
    simpa [findAmt] using ih h.2

/-! ### Stake registry lemmas -/

theorem findStake_none_iff (s : List (Account × StakeEntry)) (a : Account) :
    findStake s a = none ↔ a ∉ s.map Prod.fst := by
  induction s with
  | nil => simp [findStake]
  | cons p rest ih =>
    obtain ⟨b, e⟩ := p
    by_cases hb : b = a
    · subst hb; simp [findStake]
    · simp only [findStake, if_neg hb, List.map_cons, List.mem_cons]
      rw [ih]
      constructor
      · intro hna hmem
        rcases hmem with hmem | hmem
        · exact hb hmem.symm
        · exact hna hmem
      · intro hn hmem
        exact hn (Or.inr hmem)

theorem findStake_some_mem (s : List (Account × StakeEntry)) (a : Account)
    (e : StakeEntry) (h : findStake s a = some e) : (a, e) ∈ s := by
  induction s with
  | nil => simp [findStake] at h
  | cons p rest ih =>
    obtain ⟨b, f⟩ := p
    by_cases hb : b = a
    · subst hb
      simp [findStake] at h
      simp [h]
    · simp only [findStake, if_neg hb] at h
      exact List.mem_cons_of_mem _ (ih h)

theorem setStake_keys_of_found (s : List (Account × StakeEntry)) (a : Account)
    (e0 e : StakeEntry) (h : findStake s a = some e0) :
    (setStake s a e).map Prod.fst = s.map Prod.fst := by
  induction s with
  | nil => simp [findStake] at h
  | cons p rest ih =>
    obtain ⟨b, f⟩ := p
    by_cases hb : b = a
    · simp [setStake, hb]
    · simp only [findStake, if_neg hb] at h
      simp [setStake, hb, ih h]

theorem sumOn_append_one (s : List (Account × StakeEntry)) (a : Account)
    (e : StakeEntry) (i : Nat) :
    sumOn (s ++ [(a, e)]) i = sumOn s i + (if e.optionIndex = i then e.amount else 0) := by
  simp [sumOn]

theorem sumOn_setStake (s : List (Account × StakeEntry)) (a : Account)
    (prior e : StakeEntry) (i : Nat) (h : findStake s a = some prior) :
    sumOn (setStake s a e) i + (if prior.optionIndex = i then prior.amount else 0) =
      sumOn s i + (if e.optionIndex = i then e.amount else 0) := by
  induction s with
  | nil => simp [findStake] at h
  | cons p rest ih =>
    obtain ⟨b, f⟩ := p
    by_cases hb : b = a
    · simp only [findStake, if_pos hb, Option.some.injEq] at h
      subst h
      simp [setStake, hb, sumOn]
      omega
    · simp only [findStake, if_neg hb] at h
      have := ih h
      simp only [setStake, if_neg hb, sumOn, List.map_cons, List.sum_cons] at *
      omega

theorem mem_setStake (s : List (Account × StakeEntry)) (a : Account)
    (e : StakeEntry) (q : Account × StakeEntry) (h : q ∈ setStake s a e) :
    q ∈ s ∨ q = (a, e) := by
  induction s with
  | nil =>
    simp only [setStake, List.mem_singleton] at h
    exact Or.inr h
  | cons p rest ih =>
    obtain ⟨b, f⟩ := p
    by_cases hb : b = a
    · simp only [setStake, if_pos hb, List.mem_cons] at h
      rcases h with h1 | h1
      · exact Or.inr (by rw [h1, hb])
      · exact Or.inl (List.mem_cons_of_mem _ h1)
    · simp only [setStake, if_neg hb, List.mem_cons] at h
      rcases h with h1 | h1
      · exact Or.inl (h1 ▸ List.mem_cons_self _ _)
      · rcases ih h1 with h2 | h2
        · exact Or.inl (List.mem_cons_of_mem _ h2)
        · exact Or.inr h2

theorem findStake_setStake_self (s : List (Account × StakeEntry)) (a : Account)
    (e : StakeEntry) : findStake (setStake s a e) a = some e := by
  induction s with
  | nil => simp [setStake, findStake]
  | cons p rest ih =>
    obtain ⟨b, f⟩ := p
    by_cases hb : b = a
    · simp [setStake, hb, findStake]
    · simp [setStake, hb, findStake, ih]

theorem findStake_append_absent (s : List (Account × StakeEntry)) (a : Account)
    (e : StakeEntry) (h : findStake s a = none) :
    findStake (s ++ [(a, e)]) a = some e := by
  induction s with
  | nil => simp [findStake]
  | cons p rest ih =>
    obtain ⟨b, f⟩ := p
    by_cases hb : b = a
    · simp [findStake, hb] at h
    · simp only [findStake, if_neg hb] at h
      simpa [findStake, hb] using ih h

theorem amount_le_sumOn (s : List (Account × StakeEntry)) (a : Account)
    (e : StakeEntry) (h : (a, e) ∈ s) : e.amount ≤ sumOn s (e.optionIndex) := by
  induction s with
  | nil => simp at h
  | cons p rest ih =>
    rcases List.mem_cons.mp h with h' | h'
    · subst h'
      simp [sumOn]
    · have := ih h'
      simp only [sumOn, List.map_cons, List.sum_cons] at *
      split <;> omega

/-! ### Summing option totals over the index range -/

theorem sum_eq_range_getD (l : List Nat) :
    l.sum = ((List.range l.length).map (fun i => l.getD i 0)).sum := by
  induction l with
  | nil => simp
  | cons x xs ih =>
    rw [List.sum_cons, ih]
    simp only [List.length_cons, List.range_succ_eq_map, List.map_cons, List.sum_cons,
      List.map_map]
    congr 1

theorem range_map_ite_sum (n k a : Nat) :
    ((List.range n).map (fun i => if k = i then a else 0)).sum =
      if k < n then a else 0 := by
  induction n with
  | zero => simp
  | succ n ih =>
    rw [List.range_succ]
    simp only [List.map_append, List.sum_append, List.map_cons, List.map_nil,
      List.sum_cons, List.sum_nil, ih]
    by_cases hk : k = n
    · subst hk
      simp [Nat.lt_irrefl, Nat.lt_succ_self]
    · by_cases hlt : k < n
      · rw [if_pos hlt, if_neg hk, if_pos (Nat.lt_succ_of_lt hlt)]
        omega
      · rw [if_neg hlt, if_neg hk, if_neg (by omega)]
        omega

theorem range_sumOn_eq_total (s : List (Account × StakeEntry)) (n : Nat)
    (h : ∀ p ∈ s, p.2.optionIndex < n) :
    ((List.range n).map (fun i => sumOn s i)).sum = (s.map (fun p => p.2.amount)).sum := by
  induction s with
  | nil => simp [sumOn]
  | cons p rest ih =>
    have hrest : ∀ q ∈ rest, q.2.optionIndex < n := fun q hq =>
      h q (List.mem_cons_of_mem _ hq)
    have hp : p.2.optionIndex < n := h p (List.mem_cons_self _ _)
    have expand : ∀ i, sumOn (p :: rest) i =
        (if p.2.optionIndex = i then p.2.amount else 0) + sumOn rest i := by
      intro i; simp [sumOn]
    calc ((List.range n).map (fun i => sumOn (p :: rest) i)).sum
        = ((List.range n).map (fun i =>
            (if p.2.optionIndex = i then p.2.amount else 0) + sumOn rest i)).sum := by
          simp only [expand]
      _ = ((List.range n).map (fun i =>
            if p.2.optionIndex = i then p.2.amount else 0)).sum +
          ((List.range n).map (fun i => sumOn rest i)).sum := by
          induction (List.range n) with
          | nil => simp
          | cons m ms ihm => simp only [List.map_cons, List.sum_cons, ihm]; omega
      _ = p.2.amount + (rest.map (fun q => q.2.amount)).sum := by
          rw [range_map_ite_sum, if_pos hp, ih hrest]
      _ = ((p :: rest).map (fun q => q.2.amount)).sum := by simp

/-- Inner ledger equation: under the per-option invariant, the sum of the
option totals equals the sum of all active stake amounts. -/
theorem totals_sum_eq_stakes_sum (st : ContestState) (hinv : Inv st) :
    st.contest.optionTotals.sum = (st.stakes.map (fun p => p.2.amount)).sum := by
  rw [sum_eq_range_getD]
  have : ∀ i, st.contest.optionTotals.getD i 0 = sumOn st.stakes i := hinv.totalsEq
  calc ((List.range st.contest.optionTotals.length).map
        (fun i => st.contest.optionTotals.getD i 0)).sum
      = ((List.range st.contest.optionTotals.length).map
        (fun i => sumOn st.stakes i)).sum := by simp only [this]
    _ = (st.stakes.map (fun p => p.2.amount)).sum :=
        range_sumOn_eq_total _ _ hinv.idxBound

/-! ### Closure micro-step lemmas -/

theorem foldl_stepEv_acc (evs : List CloseEvent) :
    ∀ (s : ContestState) (t : List (Account × Nat)),
      evs.foldl stepEv (s, t) = ((runEvents s evs).1, t ++ (runEvents s evs).2) := by
  induction evs with
  | nil => intro s t; simp [runEvents]
  | cons e rest ih =>
    intro s t
    simp only [List.foldl_cons, runEvents, stepEv]
    rw [ih, ih ((applyEvent s e).1)]
    simp

theorem runEvents_cons (s : ContestState) (e : CloseEvent) (evs : List CloseEvent) :
    runEvents s (e :: evs) =
      ((runEvents (applyEvent s e).1 evs).1,
        (applyEvent s e).2 ++ (runEvents (applyEvent s e).1 evs).2) := by
  simp only [runEvents, List.foldl_cons]
  have := foldl_stepEv_acc evs (applyEvent s e).1 (applyEvent s e).2
  simpa [stepEv] using this

theorem runEvents_append (s : ContestState) (l1 l2 : List CloseEvent) :
    runEvents s (l1 ++ l2) =
      ((runEvents (runEvents s l1).1 l2).1,
        (runEvents s l1).2 ++ (runEvents (runEvents s l1).1 l2).2) := by
  simp only [runEvents, List.foldl_append]
  have : (l1.foldl stepEv (s, [])) = ((runEvents s l1).1, (runEvents s l1).2) := rfl
  rw [this]
  have h2 := foldl_stepEv_acc l2 (runEvents s l1).1 (runEvents s l1).2
  simpa [runEvents] using h2

theorem runEvents_transfers (s : ContestState) (L : List (Account × Nat)) :
    runEvents s (L.map (fun p => CloseEvent.transfer p.1 p.2)) = (s, L) := by
  induction L generalizing s with
  | nil => simp [runEvents]
  | cons p rest ih =>
    rw [List.map_cons, runEvents_cons]
    simp [applyEvent, ih]

/-- The payout-commit predicate: the payout-done flag is set and the
distributable balance zeroed in the persisted state. -/
def committed (s : ContestState) : Prop :=
  s.contest.payoutDone = true ∧ s.contest.balance = 0

theorem applyEvent_committed (s : ContestState) (e : CloseEvent)
    (h : committed s) : committed (applyEvent s e).1 := by
  obtain ⟨h1, h2⟩ := h
  cases e <;> simp [applyEvent, committed, h1, h2]

theorem runEvents_committed (evs : List CloseEvent) :
    ∀ s : ContestState, committed s → committed (runEvents s evs).1 := by
  induction evs with
  | nil => intro s h; simpa [runEvents] using h
  | cons e rest ih =>
    intro s h
    rw [runEvents_cons]
    exact ih _ (applyEvent_committed s e h)

/-! ### Winner determination -/

theorem getD_le_argmax (l : List Nat) (i : Nat) :
    l.getD i 0 ≤ l.getD (argmaxIdx l) 0 := by
  induction l generalizing i with
  | nil => simp
  | cons x xs ih =>
    simp only [argmaxIdx]
    by_cases hx : x < xs.getD (argmaxIdx xs) 0
    · rw [if_pos hx]
      cases i with
      | zero =>
        simp only [List.getD_cons_zero, List.getD_cons_succ]
        exact Nat.le_of_lt hx
      | succ i =>
        simp only [List.getD_cons_succ]
        exact ih i
    · rw [if_neg hx]
      cases i with
      | zero => simp
      | succ i =>
        simp only [List.getD_cons_succ, List.getD_cons_zero]
        exact le_trans (ih i) (Nat.le_of_not_lt hx)

theorem argmax_lowest (l : List Nat) (j : Nat) (hj : j < argmaxIdx l) :
    l.getD j 0 < l.getD (argmaxIdx l) 0 := by
  induction l generalizing j with
  | nil => simp [argmaxIdx] at hj
  | cons x xs ih =>
    simp only [argmaxIdx] at hj ⊢
    by_cases hx : x < xs.getD (argmaxIdx xs) 0
    · rw [if_pos hx] at hj ⊢
      cases j with
      | zero => simpa using hx
      | succ j =>
        simp only [List.getD_cons_succ]
        exact ih j (by omega)
    · rw [if_neg hx] at hj
      omega

/-! ### Integer division bounds -/

theorem div_add_div_le (a b T : Nat) : a / T + b / T ≤ (a + b) / T := by
  rcases Nat.eq_zero_or_pos T with hT | hT
  · simp [hT]
  · rw [Nat.le_div_iff_mul_le hT, Nat.add_mul]
    have ha := Nat.div_mul_le_self a T
    have hb := Nat.div_mul_le_self b T
    omega

theorem sum_div_le_div_sum (L : List Nat) (T : Nat) :
    (L.map (fun s => s / T)).sum ≤ L.sum / T := by
  induction L with
  | nil => simp
  | cons s rest ih =>
    simp only [List.map_cons, List.sum_cons]
    calc s / T + (rest.map (fun x => x / T)).sum ≤ s / T + rest.sum / T := by omega
      _ ≤ (s + rest.sum) / T := div_add_div_le _ _ _

theorem sharesChecked_eq (pool total : Nat) (L : List (Account × Nat))
    (shares : List (Account × Nat)) (h : sharesChecked pool total L = some shares) :
    shares = L.map (fun p => (p.1, pool * p.2 / total)) := by
  induction L generalizing shares with
  | nil =>
    simp only [sharesChecked, Option.some.injEq] at h
    rw [← h]
    simp
  | cons p rest ih =>
    obtain ⟨a, s⟩ := p
    simp only [sharesChecked] at h
    cases hm : checkedMul pool s with
    | none => rw [hm] at h; simp at h
    | some numer =>
      rw [hm] at h
      cases hr : sharesChecked pool total rest with
      | none => rw [hr] at h; simp at h
      | some tail =>
        rw [hr] at h
        simp only [Option.some.injEq] at h
        have hnum : numer = pool * s := by
          simp only [checkedMul] at hm
          by_cases hle : pool * s ≤ U128_MAX
          · rw [if_pos hle] at hm; exact (Option.some.injEq _ _ ▸ hm).symm
          · rw [if_neg hle] at hm; simp at hm
        rw [← h, ih tail hr, hnum]
        simp

theorem sumAmounts_map_div (pool total : Nat) (L : List (Account × Nat)) :
    sumAmounts (L.map (fun p => (p.1, pool * p.2 / total))) =
      (L.map (fun p => pool * p.2 / total)).sum := by
  induction L with
  | nil => simp [sumAmounts]
  | cons q qs ih =>
    simp only [List.map_cons, sumAmounts, List.sum_cons] at ih ⊢
    omega

theorem map_mul_sum (pool : Nat) (L : List (Account × Nat)) :
    (L.map (fun p => pool * p.2)).sum = pool * (L.map Prod.snd).sum := by
  induction L with
  | nil => simp
  | cons q qs ih => simp only [List.map_cons, List.sum_cons, ih]; ring

theorem sumAmounts_shares_le (pool total : Nat) (L : List (Account × Nat))
    (hpos : 0 < total) (hsum : (L.map Prod.snd).sum = total) :
    sumAmounts (L.map (fun p => (p.1, pool * p.2 / total))) ≤ pool := by
  rw [sumAmounts_map_div]
  have h2 : (L.map (fun p => pool * p.2 / total)).sum =
      ((L.map (fun p => pool * p.2)).map (fun x => x / total)).sum := by
    rw [List.map_map]
    rfl
  rw [h2]
  calc ((L.map (fun p => pool * p.2)).map (fun x => x / total)).sum
      ≤ (L.map (fun p => pool * p.2)).sum / total := sum_div_le_div_sum _ _
    _ = pool * (L.map Prod.snd).sum / total := by rw [map_mul_sum]
    _ = pool := by rw [hsum, Nat.mul_div_cancel _ hpos]

/-! ### Characterizing a successful closure -/

/-- The persisted contest after closure: winner recorded, payout-done flag
set, distributable balance zeroed, contest closed. -/
def closedState (st : ContestState) (w : Nat) : ContestState :=
  { st with contest := { st.contest with
      winnerIndex := some w, payoutDone := true, balance := 0, isClosed := true } }

theorem runEvents_closure (st : ContestState) (w : Nat) (L : List (Account × Nat)) :
    runEvents st (([CloseEvent.setWinner w, CloseEvent.setPayoutDone,
        CloseEvent.zeroBalance] ++ L.map (fun p => CloseEvent.transfer p.1 p.2)) ++
      [CloseEvent.setClosed]) = (closedState st w, L) := by
  have hlist : (([CloseEvent.setWinner w, CloseEvent.setPayoutDone,
      CloseEvent.zeroBalance] ++ L.map (fun p => CloseEvent.transfer p.1 p.2)) ++
      [CloseEvent.setClosed]) =
      CloseEvent.setWinner w :: CloseEvent.setPayoutDone :: CloseEvent.zeroBalance ::
        (L.map (fun p => CloseEvent.transfer p.1 p.2) ++ [CloseEvent.setClosed]) := by
    simp
  rw [hlist, runEvents_cons, runEvents_cons, runEvents_cons, runEvents_append,
    runEvents_transfers]
  simp only [applyEvent]
  have hclose : runEvents { st with contest := { st.contest with
      winnerIndex := some w, payoutDone := true, balance := 0 } }
      [CloseEvent.setClosed] = (closedState st w, []) := rfl
  rw [hclose]
  simp

theorem close_ok_elim (cfg : Config) (st : ContestState) (caller : Account)
    (now : Nat) (st' : ContestState) (tr : List (Account × Nat))
    (h : close cfg st caller now = .ok (st', tr)) :
    (caller = st.contest.creator ∨ caller = cfg.owner) ∧
    st.contest.isClosed = false ∧ st.contest.payoutDone = false ∧
    st.contest.endsAt ≤ now ∧
    ∃ feeAmount outs,
      computePayout st.contest.optionTotals (argmaxIdx st.contest.optionTotals)
        st.contest.basePrize st.contest.creatorSharePct st.contest.backerSharePct
        cfg.platformFeeBps (winnerStakers st.stakes (argmaxIdx st.contest.optionTotals))
        st.contest.creator = .ok (feeAmount, outs) ∧
      tr = (if 0 < feeAmount then [(cfg.platform, feeAmount)] else []) ++ outs ∧
      st' = closedState st (argmaxIdx st.contest.optionTotals) := by
  unfold close closeTrace at h
  by_cases hauth : caller = st.contest.creator ∨ caller = cfg.owner
  · rw [if_pos hauth] at h
    by_cases hclosed : st.contest.isClosed = true ∨ st.contest.payoutDone = true
    · rw [if_pos hclosed] at h
      simp [Except.map] at h
    · rw [if_neg hclosed] at h
      by_cases htime : now < st.contest.endsAt
      · rw [if_pos htime] at h
        simp [Except.map] at h
      · rw [if_neg htime] at h
        push_neg at hclosed htime
        cases hcp : computePayout st.contest.optionTotals
            (argmaxIdx st.contest.optionTotals) st.contest.basePrize
            st.contest.creatorSharePct st.contest.backerSharePct cfg.platformFeeBps
            (winnerStakers st.stakes (argmaxIdx st.contest.optionTotals))
            st.contest.creator with
        | error e =>
          rw [hcp] at h
          simp [Except.map] at h
        | ok v =>
          obtain ⟨feeAmount, outs⟩ := v
          rw [hcp] at h
          simp only [Except.map, Except.ok.injEq] at h
          rw [runEvents_closure] at h
          injection h with hst htr
          have hb1 : st.contest.isClosed = false := by
            cases hcl : st.contest.isClosed with
            | false => rfl
            | true => exact absurd hcl hclosed.1
          have hb2 : st.contest.payoutDone = false := by
            cases hcl : st.contest.payoutDone with
            | false => rfl
            | true => exact absurd hcl hclosed.2
          exact ⟨hauth, hb1, hb2, htime, feeAmount, outs, rfl, htr.symm, hst.symm⟩
  · rw [if_neg hauth] at h
    simp [Except.map] at h

/-- An unauthorized caller is rejected with `AuthorizationError`. -/
theorem close_unauthorized (cfg : Config) (st : ContestState) (caller : Account)
    (now : Nat) (h1 : caller ≠ st.contest.creator) (h2 : caller ≠ cfg.owner) :
    close cfg st caller now = .error .authorization := by
  unfold close closeTrace
  rw [if_neg (by intro hor; rcases hor with hh | hh; exact h1 hh; exact h2 hh)]
  rfl

/-- An authorized caller before expiry is rejected with `StateError`. -/
theorem close_early (cfg : Config) (st : ContestState) (caller : Account)
    (now : Nat) (hauth : caller = st.contest.creator ∨ caller = cfg.owner)
    (ht : now < st.contest.endsAt) : close cfg st caller now = .error .state := by
  unfold close closeTrace
  rw [if_pos hauth]
  by_cases hclosed : st.contest.isClosed = true ∨ st.contest.payoutDone = true
  · rw [if_pos hclosed]; rfl
  · rw [if_neg hclosed, if_pos ht]; rfl

/-- A closed (or already paid-out) contest rejects closure with `StateError`. -/
theorem close_again_state_error (cfg : Config) (st : ContestState) (caller : Account)
    (now : Nat) (hauth : caller = st.contest.creator ∨ caller = cfg.owner)
    (hclosed : st.contest.isClosed = true ∨ st.contest.payoutDone = true) :
    close cfg st caller now = .error .state := by
  unfold close closeTrace
  rw [if_pos hauth, if_pos hclosed]
  rfl

/-! ### Invariant preservation -/

theorem create_inv (cfg : Config) (caller : Account) (now : Nat) (p : CreateParams)
    (attached storageCost : Nat) (st : ContestState)
    (h : create cfg caller now p attached storageCost = .ok st) : Inv st := by
  unfold create at h
  split at h
  · simp at h
  · split at h
    · simp at h
    · split at h
      · simp at h
      · split at h
        · simp at h
        · split at h
          · simp at h
          · simp only [Except.ok.injEq] at h
            subst h
            constructor
            · simp [keysNodup]
            · intro q hq; simp at hq
            · intro i
              simp only [sumOn, List.map_nil, List.sum_nil]
              exact getD_replicate_zero _ _
            · intro hpd; simp at hpd
            · intro _; rfl

theorem stake_inv (cfg : Config) (st : ContestState) (caller : Account)
    (now optionIndex amount : Nat) (st' : ContestState) (hinv : Inv st)
    (h : stake cfg st caller now optionIndex amount = .ok st') : Inv st' := by
  unfold stake at h
  by_cases h1 : st.contest.optionTotals.length ≤ optionIndex
  · rw [if_pos h1] at h; simp at h
  · rw [if_neg h1] at h
    by_cases h2 : st.contest.isClosed = true ∨ st.contest.endsAt ≤ now
    · rw [if_pos h2] at h; simp at h
    · rw [if_neg h2] at h
      by_cases h3 : st.contest.isPublic = false ∧ caller ∉ st.whitelist
      · rw [if_pos h3] at h; simp at h
      · rw [if_neg h3] at h
        by_cases h4 : amount = 0
        · rw [if_pos h4] at h; simp at h
        · rw [if_neg h4] at h
          push_neg at h1 h2
          have hopen : st.contest.isClosed = false := Bool.not_eq_true _ ▸ h2.1
          have hpdf : st.contest.payoutDone = false := by
            cases hpd : st.contest.payoutDone with
            | false => rfl
            | true => exact absurd (hinv.payoutZero hpd).2 (by rw [hopen]; simp)
          cases hf : findStake st.stakes caller with
          | some prior =>
            rw [hf] at h
            simp only [Except.ok.injEq] at h
            subst h
            have hmem := findStake_some_mem st.stakes caller prior hf
            have hio : prior.optionIndex < st.contest.optionTotals.length :=
              hinv.idxBound _ hmem
            have hA : prior.amount ≤ sumOn st.stakes prior.optionIndex :=
              amount_le_sumOn st.stakes caller prior hmem
            constructor
            · have hkeys := setStake_keys_of_found st.stakes caller prior
                ⟨optionIndex, amount, now⟩ hf
              unfold keysNodup
              dsimp only
              rw [hkeys]
              exact hinv.nodupKeys
            · intro q hq
              rcases mem_setStake _ _ _ _ hq with hq1 | hq1
              · simpa [List.length_set] using hinv.idxBound q hq1
              · subst hq1
                simpa [List.length_set] using h1
            · intro i
              dsimp only
              have hkey := sumOn_setStake st.stakes caller prior
                ⟨optionIndex, amount, now⟩ i hf
              dsimp only at hkey
              have htot := hinv.totalsEq i
              have htoti := hinv.totalsEq prior.optionIndex
              have hlen1 : optionIndex <
                  (st.contest.optionTotals.set prior.optionIndex
                    (st.contest.optionTotals.getD prior.optionIndex 0 -
                      prior.amount)).length := by
                simpa [List.length_set] using h1
              by_cases hij : optionIndex = i
              · subst hij
                rw [if_pos rfl] at hkey
                rw [getD_set_self _ _ _ hlen1]
                by_cases hoi : prior.optionIndex = optionIndex
                · rw [if_pos hoi] at hkey
                  rw [hoi] at hio hA htoti
                  rw [hoi]
                  rw [getD_set_self _ _ _ hio]
                  omega
                · rw [if_neg hoi] at hkey
                  rw [getD_set_ne _ _ _ _ (fun hh => hoi hh.symm)]
                  omega
              · rw [if_neg hij] at hkey
                rw [getD_set_ne _ _ _ _ (fun hh => hij hh.symm)]
                by_cases hoi : prior.optionIndex = i
                · rw [if_pos hoi] at hkey
                  rw [hoi] at hio hA
                  rw [hoi]
                  rw [getD_set_self _ _ _ hio]
                  omega
                · rw [if_neg hoi] at hkey
                  rw [getD_set_ne _ _ _ _ (fun hh => hoi hh.symm)]
                  omega
            · intro hpd
              dsimp only at hpd
              rw [hpdf] at hpd
              exact absurd hpd (by simp)
            · intro _
              dsimp only
              exact hinv.winnerUnset hopen
          | none =>
            rw [hf] at h
            by_cases h5 : cfg.participantCap ≤ st.contest.totalParticipants
            · rw [if_pos h5] at h; simp at h
            · rw [if_neg h5] at h
              simp only [Except.ok.injEq] at h
              subst h
              have habsent : caller ∉ st.stakes.map Prod.fst :=
                (findStake_none_iff _ _).mp hf
              constructor
              · unfold keysNodup
                dsimp only
                simp only [List.map_append, List.map_cons, List.map_nil]
                rw [List.nodup_append]
                refine ⟨hinv.nodupKeys, List.nodup_singleton _, ?_⟩
                intro a ha hb
                simp only [List.mem_singleton] at hb
                subst hb
                exact habsent ha
              · intro q hq
                dsimp only at hq
                rcases List.mem_append.mp hq with hq1 | hq1
                · simpa [List.length_set] using hinv.idxBound q hq1
                · simp only [List.mem_singleton] at hq1
                  subst hq1
                  simpa [List.length_set] using h1
              · intro i
                dsimp only
                rw [sumOn_append_one]
                dsimp only
                have htot := hinv.totalsEq i
                have h1lt : optionIndex < st.contest.optionTotals.length := h1
                by_cases hij : optionIndex = i
                · subst hij
                  rw [getD_set_self _ _ _ h1lt]
                  rw [if_pos rfl]
                  omega
                · rw [getD_set_ne _ _ _ _ (fun hh => hij hh.symm)]
                  rw [if_neg hij]
                  omega
              · intro hpd
                dsimp only at hpd
                rw [hpdf] at hpd
                exact absurd hpd (by simp)
              · intro _
                dsimp only
                exact hinv.winnerUnset hopen

theorem close_inv (cfg : Config) (st : ContestState) (caller : Account) (now : Nat)
    (st' : ContestState) (tr : List (Account × Nat)) (hinv : Inv st)
    (h : close cfg st caller now = .ok (st', tr)) : Inv st' := by
  obtain ⟨_, _, _, _, fee, outs, _, _, hst⟩ := close_ok_elim cfg st caller now st' tr h
  subst hst
  constructor
  · exact hinv.nodupKeys
  · exact hinv.idxBound
  · exact hinv.totalsEq
  · intro _; exact ⟨rfl, rfl⟩
  · intro hcl; simp [closedState] at hcl

theorem whitelistAdd_inv (st : ContestState) (caller account : Account)
    (st' : ContestState) (hinv : Inv st)
    (h : whitelistAdd st caller account = .ok st') : Inv st' := by
  unfold whitelistAdd at h
  split at h
  · simp only [Except.ok.injEq] at h
    subst h
    exact ⟨hinv.nodupKeys, hinv.idxBound, hinv.totalsEq, hinv.payoutZero,
      hinv.winnerUnset⟩
  · simp at h

theorem whitelistRemove_inv (st : ContestState) (caller account : Account)
    (st' : ContestState) (hinv : Inv st)
    (h : whitelistRemove st caller account = .ok st') : Inv st' := by
  unfold whitelistRemove at h
  split at h
  · simp only [Except.ok.injEq] at h
    subst h
    exact ⟨hinv.nodupKeys, hinv.idxBound, hinv.totalsEq, hinv.payoutZero,
      hinv.winnerUnset⟩
  · simp at h

theorem stepOp_inv (cfg : Config) (st : ContestState) (op : Op)
    (st' : ContestState) (tr : List (Account × Nat)) (hinv : Inv st)
    (h : stepOp cfg st op = .ok (st', tr)) : Inv st' := by
  cases op with
  | stakeOp caller now i a =>
    simp only [stepOp] at h
    cases hs : stake cfg st caller now i a with
    | error e => rw [hs] at h; simp [Except.map] at h
    | ok s =>
      rw [hs] at h
      simp only [Except.map, Except.ok.injEq, Prod.mk.injEq] at h
      exact h.1 ▸ stake_inv cfg st caller now i a s hinv hs
  | closeOp caller now =>
    exact close_inv cfg st caller now st' tr hinv h
  | whitelistAddOp caller account =>
    simp only [stepOp] at h
    cases hs : whitelistAdd st caller account with
    | error e => rw [hs] at h; simp [Except.map] at h
    | ok s =>
      rw [hs] at h
      simp only [Except.map, Except.ok.injEq, Prod.mk.injEq] at h
      exact h.1 ▸ whitelistAdd_inv st caller account s hinv hs
  | whitelistRemoveOp caller account =>
    simp only [stepOp] at h
    cases hs : whitelistRemove st caller account with
    | error e => rw [hs] at h; simp [Except.map] at h
    | ok s =>
      rw [hs] at h
      simp only [Except.map, Except.ok.injEq, Prod.mk.injEq] at h
      exact h.1 ▸ whitelistRemove_inv st caller account s hinv hs

/-- Every reachable contest state satisfies the ledger invariants. -/
theorem reachable_inv (cfg : Config) (st : ContestState) (h : Reachable cfg st) :
    Inv st := by
  induction h with
  | created caller now p attached storageCost st hc =>
    exact create_inv cfg caller now p attached storageCost st hc
  | step st op st' tr _ hstep ih =>
    exact stepOp_inv cfg st op st' tr ih hstep

/-! ### Further supporting lemmas -/

theorem closeTrace_ok_shape (cfg : Config) (st : ContestState) (caller : Account)
    (now : Nat) (tr : List CloseEvent) (h : closeTrace cfg st caller now = .ok tr) :
    ∃ L : List (Account × Nat),
      tr = ([CloseEvent.setWinner (argmaxIdx st.contest.optionTotals),
        CloseEvent.setPayoutDone, CloseEvent.zeroBalance] ++
        L.map (fun p => CloseEvent.transfer p.1 p.2)) ++ [CloseEvent.setClosed] := by
  unfold closeTrace at h
  split at h
  · split at h
    · simp at h
    · split at h
      · simp at h
      · split at h
        · simp at h
        · simp only [Except.ok.injEq] at h
          exact ⟨_, h.symm⟩
  · simp at h

/-- Once a contest is closed, every still-succeeding operation dispatches
no transfer and leaves the contest record untouched. -/
theorem stepOp_closed_contest (cfg : Config) (st : ContestState) (op : Op)
    (st' : ContestState) (tr : List (Account × Nat))
    (hcl : st.contest.isClosed = true) (h : stepOp cfg st op = .ok (st', tr)) :
    tr = [] ∧ st'.contest = st.contest := by
  cases op with
  | stakeOp caller now i a =>
    simp only [stepOp] at h
    unfold stake at h
    split at h
    · simp [Except.map] at h
    · rw [if_pos (Or.inl hcl)] at h
      simp [Except.map] at h
  | closeOp caller now =>
    simp only [stepOp] at h
    by_cases hauth : caller = st.contest.creator ∨ caller = cfg.owner
    · rw [close_again_state_error cfg st caller now hauth (Or.inl hcl)] at h
      simp at h
    · rw [close_unauthorized cfg st caller now
        (fun hh => hauth (Or.inl hh)) (fun hh => hauth (Or.inr hh))] at h
      simp at h
  | whitelistAddOp caller account =>
    simp only [stepOp] at h
    unfold whitelistAdd at h
    split at h
    · simp only [Except.map, Except.ok.injEq, Prod.mk.injEq] at h
      exact ⟨h.2.symm, by rw [← h.1]⟩
    · simp [Except.map] at h
  | whitelistRemoveOp caller account =>
    simp only [stepOp] at h
    unfold whitelistRemove at h
    split at h
    · simp only [Except.map, Except.ok.injEq, Prod.mk.injEq] at h
      exact ⟨h.2.symm, by rw [← h.1]⟩
    · simp [Except.map] at h

theorem getD_le_sum (l : List Nat) (i : Nat) : l.getD i 0 ≤ l.sum := by
  induction l generalizing i with
  | nil => simp
  | cons x xs ih =>
    cases i with
    | zero => simp
    | succ i =>
      simp only [List.getD_cons_succ, List.sum_cons]
      exact le_trans (ih i) (by omega)

theorem mem_le_sum_snd (L : List (Account × Nat)) (p : Account × Nat) (hp : p ∈ L) :
    p.2 ≤ (L.map Prod.snd).sum := by
  induction L with
  | nil => simp at hp
  | cons q rest ih =>
    rcases List.mem_cons.mp hp with h | h
    · subst h; simp
    · have := ih h
      simp only [List.map_cons, List.sum_cons]
      omega

theorem sharesChecked_some_of_bounded (pool total : Nat) (L : List (Account × Nat))
    (hb : ∀ p ∈ L, pool * p.2 ≤ U128_MAX) :
    sharesChecked pool total L = some (L.map (fun p => (p.1, pool * p.2 / total))) := by
  induction L with
  | nil => simp [sharesChecked]
  | cons p rest ih =>
    obtain ⟨a, s⟩ := p
    have hp : pool * s ≤ U128_MAX := hb (a, s) (List.mem_cons_self _ _)
    have hrest : ∀ q ∈ rest, pool * q.2 ≤ U128_MAX := fun q hq =>
      hb q (List.mem_cons_of_mem _ hq)
    simp only [sharesChecked, checkedMul, if_pos hp, ih hrest, List.map_cons]

theorem findAmt_map_of_nodup (L : List (Account × Nat)) (f : Account × Nat → Nat)
    (p : Account × Nat) (hp : p ∈ L) (hnd : (L.map Prod.fst).Nodup) :
    findAmt (L.map (fun q => (q.1, f q))) p.1 = f p := by
  induction L with
  | nil => simp at hp
  | cons q rest ih =>
    simp only [List.map_cons, List.nodup_cons] at hnd
    rcases List.mem_cons.mp hp with h | h
    · subst h
      simp only [List.map_cons, findAmt, List.map_cons, List.sum_cons, if_pos rfl]
      have hnm : p.1 ∉ (rest.map (fun q => (q.1, f q))).map Prod.fst := by
        simpa [List.map_map, Function.comp] using hnd.1
      have := findAmt_not_mem (rest.map (fun q => (q.1, f q))) p.1 hnm
      simp only [findAmt] at this
      simp only [eq_self_iff_true, if_true]
      omega
    · have hne : ¬q.1 = p.1 := by
        intro hq
        exact hnd.1 (hq ▸ List.mem_map_of_mem Prod.fst h)
      have := ih h hnd.2
      simp only [List.map_cons, findAmt, List.map_cons, List.sum_cons, if_neg hne]
      simp only [findAmt] at this
      omega

theorem aggregate_singleton (a : Account) (n : Nat) :
    aggregate [(a, n)] = [(a, n)] := rfl

/-! ### The payout formulas of the specification -/

/-- The spec's total pool: `base_prize + sum(option_totals)`. -/
def specTotalPool (optionTotals : List Nat) (basePrize : Nat) : Nat :=
  basePrize + optionTotals.sum

/-- The spec's platform fee: `total_pool * platform_fee_bps / 10000`. -/
def specFee (optionTotals : List Nat) (basePrize bps : Nat) : Nat :=
  specTotalPool optionTotals basePrize * bps / 10000

/-- The spec's net pool: `total_pool - fee_amount`. -/
def specNet (optionTotals : List Nat) (basePrize bps : Nat) : Nat :=
  specTotalPool optionTotals basePrize - specFee optionTotals basePrize bps

/-- The spec's creator amount: `net * creator_share_pct / 100`. -/
def specCreatorAmount (optionTotals : List Nat) (basePrize bps pct : Nat) : Nat :=
  specNet optionTotals basePrize bps * pct / 100

/-- The spec's backer pool: `net - creator_amount`. -/
def specBackerPool (optionTotals : List Nat) (basePrize bps pct : Nat) : Nat :=
  specNet optionTotals basePrize bps - specCreatorAmount optionTotals basePrize bps pct

/-- The spec's per-backer shares: `backer_pool * their_stake /
option_totals[winner_index]`, by integer division. -/
def specBackerShares (optionTotals : List Nat) (winnerIndex basePrize bps pct : Nat)
    (stakerList : List (Account × Nat)) : List (Account × Nat) :=
  stakerList.map (fun p => (p.1,
    specBackerPool optionTotals basePrize bps pct * p.2 /
      optionTotals.getD winnerIndex 0))

theorem u64_sq_le_u128 : ((2 : Nat) ^ 64 - 1) * ((2 : Nat) ^ 64 - 1) ≤ U128_MAX := by
  norm_num [U128_MAX]

theorem computePayout_ok_of_bounds
    (optionTotals : List Nat) (winnerIndex : Nat)
    (basePrize creatorSharePct backerSharePct platformFeeBps : Nat)
    (stakerList : List (Account × Nat)) (creator : Account)
    (hbps : platformFeeBps ≤ 10000) (hpct : creatorSharePct ≤ 100)
    (hpool : basePrize + optionTotals.sum ≤ 2 ^ 64 - 1)
    (hT : 0 < optionTotals.getD winnerIndex 0)
    (hstakes : ∀ p ∈ stakerList, p.2 ≤ 2 ^ 64 - 1) :
    computePayout optionTotals winnerIndex basePrize creatorSharePct backerSharePct
      platformFeeBps stakerList creator =
    .ok (specFee optionTotals basePrize platformFeeBps,
      aggregate ((creator,
          specCreatorAmount optionTotals basePrize platformFeeBps creatorSharePct) ::
        specBackerShares optionTotals winnerIndex basePrize platformFeeBps
          creatorSharePct stakerList ++
        [(creator,
          specBackerPool optionTotals basePrize platformFeeBps creatorSharePct -
          sumAmounts (specBackerShares optionTotals winnerIndex basePrize
            platformFeeBps creatorSharePct stakerList))])) := by
  have hU : (2 : Nat) ^ 64 - 1 ≤ U128_MAX := by norm_num [U128_MAX]
  have hP : basePrize + optionTotals.sum ≤ U128_MAX := le_trans hpool hU
  have hadd : checkedAdd basePrize optionTotals.sum =
      some (basePrize + optionTotals.sum) := by
    simp [checkedAdd, hP]
  have hPf : (basePrize + optionTotals.sum) * platformFeeBps ≤ U128_MAX := by
    calc (basePrize + optionTotals.sum) * platformFeeBps
        ≤ (2 ^ 64 - 1) * 10000 := Nat.mul_le_mul hpool hbps
      _ ≤ U128_MAX := by norm_num [U128_MAX]
  have hmul1 : checkedMul (basePrize + optionTotals.sum) platformFeeBps =
      some ((basePrize + optionTotals.sum) * platformFeeBps) := by
    simp [checkedMul, hPf]
  have hTne : ¬optionTotals.getD winnerIndex 0 = 0 := Nat.pos_iff_ne_zero.mp hT
  have hnet_le : basePrize + optionTotals.sum -
      (basePrize + optionTotals.sum) * platformFeeBps / 10000 ≤ 2 ^ 64 - 1 :=
    le_trans (Nat.sub_le _ _) hpool
  have hNc : (basePrize + optionTotals.sum -
      (basePrize + optionTotals.sum) * platformFeeBps / 10000) *
      creatorSharePct ≤ U128_MAX := by
    calc (basePrize + optionTotals.sum -
        (basePrize + optionTotals.sum) * platformFeeBps / 10000) * creatorSharePct
        ≤ (2 ^ 64 - 1) * 100 := Nat.mul_le_mul hnet_le hpct
      _ ≤ U128_MAX := by norm_num [U128_MAX]
  have hmul2 : checkedMul (basePrize + optionTotals.sum -
      (basePrize + optionTotals.sum) * platformFeeBps / 10000) creatorSharePct =
      some ((basePrize + optionTotals.sum -
        (basePrize + optionTotals.sum) * platformFeeBps / 10000) * creatorSharePct) := by
    simp [checkedMul, hNc]
  have hBP_le : basePrize + optionTotals.sum -
      (basePrize + optionTotals.sum) * platformFeeBps / 10000 -
      (basePrize + optionTotals.sum -
        (basePrize + optionTotals.sum) * platformFeeBps / 10000) *
        creatorSharePct / 100 ≤ 2 ^ 64 - 1 :=
    le_trans (Nat.sub_le _ _) hnet_le
  have hShares : ∀ p ∈ stakerList,
      (basePrize + optionTotals.sum -
        (basePrize + optionTotals.sum) * platformFeeBps / 10000 -
        (basePrize + optionTotals.sum -
          (basePrize + optionTotals.sum) * platformFeeBps / 10000) *
          creatorSharePct / 100) * p.2 ≤ U128_MAX := by
    intro p hp
    calc (basePrize + optionTotals.sum -
        (basePrize + optionTotals.sum) * platformFeeBps / 10000 -
        (basePrize + optionTotals.sum -
          (basePrize + optionTotals.sum) * platformFeeBps / 10000) *
          creatorSharePct / 100) * p.2
        ≤ (2 ^ 64 - 1) * (2 ^ 64 - 1) := Nat.mul_le_mul hBP_le (hstakes p hp)
      _ ≤ U128_MAX := u64_sq_le_u128
  have h4 := sharesChecked_some_of_bounded _ (optionTotals.getD winnerIndex 0)
    stakerList hShares
  simp only [computePayout, hadd, hmul1, if_neg hTne, hmul2, h4]
  simp only [specFee, specNet, specCreatorAmount, specBackerPool, specTotalPool,
    specBackerShares]

theorem findAmt_cons (b : Account) (m : Nat) (l : List (Account × Nat)) (a : Account) :
    findAmt ((b, m) :: l) a = (if b = a then m else 0) + findAmt l a := by
  simp [findAmt]

theorem findAmt_nil (a : Account) : findAmt [] a = 0 := rfl

theorem specBackerShares_keys (optionTotals : List Nat)
    (winnerIndex basePrize bps pct : Nat) (stakerList : List (Account × Nat)) :
    (specBackerShares optionTotals winnerIndex basePrize bps pct stakerList).map
      Prod.fst = stakerList.map Prod.fst := by
  simp [specBackerShares, List.map_map, Function.comp]

theorem computePayout_refund
    (optionTotals : List Nat) (winnerIndex : Nat)
    (basePrize creatorSharePct backerSharePct platformFeeBps : Nat)
    (stakerList : List (Account × Nat)) (creator : Account)
    (hbps : platformFeeBps ≤ 10000)
    (hpool : basePrize + optionTotals.sum ≤ 2 ^ 64 - 1)
    (hT0 : optionTotals.getD winnerIndex 0 = 0) :
    computePayout optionTotals winnerIndex basePrize creatorSharePct backerSharePct
      platformFeeBps stakerList creator =
    .ok (specFee optionTotals basePrize platformFeeBps,
      [(creator, specNet optionTotals basePrize platformFeeBps)]) := by
  have hU : (2 : Nat) ^ 64 - 1 ≤ U128_MAX := by norm_num [U128_MAX]
  have hP : basePrize + optionTotals.sum ≤ U128_MAX := le_trans hpool hU
  have hadd : checkedAdd basePrize optionTotals.sum =
      some (basePrize + optionTotals.sum) := by
    simp [checkedAdd, hP]
  have hPf : (basePrize + optionTotals.sum) * platformFeeBps ≤ U128_MAX := by
    calc (basePrize + optionTotals.sum) * platformFeeBps
        ≤ (2 ^ 64 - 1) * 10000 := Nat.mul_le_mul hpool hbps
      _ ≤ U128_MAX := by norm_num [U128_MAX]
  have hmul1 : checkedMul (basePrize + optionTotals.sum) platformFeeBps =
      some ((basePrize + optionTotals.sum) * platformFeeBps) := by
    simp [checkedMul, hPf]
  simp only [computePayout, hadd, hmul1, if_pos hT0, aggregate_singleton]
  simp only [specFee, specNet, specTotalPool]

theorem computePayout_error_eq (optionTotals : List Nat) (winnerIndex : Nat)
    (basePrize creatorSharePct backerSharePct platformFeeBps : Nat)
    (stakerList : List (Account × Nat)) (creator : Account) (e : CoreError)
    (h : computePayout optionTotals winnerIndex basePrize creatorSharePct
      backerSharePct platformFeeBps stakerList creator = .error e) :
    e = .computation := by
  unfold computePayout at h
  split at h
  · injection h with h1; exact h1.symm
  · split at h
    · injection h with h1; exact h1.symm
    · dsimp only at h
      split at h
      · simp at h
      · split at h
        · injection h with h1; exact h1.symm
        · split at h
          · injection h with h1; exact h1.symm
          · simp at h

/-! ### Claim theorems -/

/-- C3: for every payout computation with `platform_fee_bps ≤ 2000` (and the
configured bounds keeping amounts in `u128` range), the fee is
`total_pool * platform_fee_bps / 10000` with `total_pool = base_prize +
sum(option_totals)`; each backer of the winning option receives
`backer_pool * their_stake / option_totals[winner_index]` by integer
division; the rounding remainder goes to the single deterministically
chosen recipient (the creator, who thus receives `net * creator_share_pct /
100` of `net = total_pool - fee` plus the remainder); and the sum of all
output amounts plus the fee equals `total_pool` exactly. -/
theorem c3_proportional_split
    (optionTotals : List Nat) (winnerIndex : Nat)
    (basePrize creatorSharePct backerSharePct platformFeeBps : Nat)
    (stakerList : List (Account × Nat)) (creator : Account)
    (hbps : platformFeeBps ≤ 2000) (hpct : creatorSharePct ≤ 100)
    (hpool : basePrize + optionTotals.sum ≤ 2 ^ 64 - 1)
    (hT : 0 < optionTotals.getD winnerIndex 0)
    (hsum : (stakerList.map Prod.snd).sum = optionTotals.getD winnerIndex 0)
    (hnd : (stakerList.map Prod.fst).Nodup)
    (hcr : creator ∉ stakerList.map Prod.fst) :
    ∃ outs,
      computePayout optionTotals winnerIndex basePrize creatorSharePct
        backerSharePct platformFeeBps stakerList creator =
        .ok (specFee optionTotals basePrize platformFeeBps, outs) ∧
      specFee optionTotals basePrize platformFeeBps =
        (basePrize + optionTotals.sum) * platformFeeBps / 10000 ∧
      (∀ p ∈ stakerList, findAmt outs p.1 =
        specBackerPool optionTotals basePrize platformFeeBps creatorSharePct * p.2 /
          optionTotals.getD winnerIndex 0) ∧
      findAmt outs creator =
        specCreatorAmount optionTotals basePrize platformFeeBps creatorSharePct +
        (specBackerPool optionTotals basePrize platformFeeBps creatorSharePct -
          sumAmounts (specBackerShares optionTotals winnerIndex basePrize
            platformFeeBps creatorSharePct stakerList)) ∧
      sumAmounts outs + specFee optionTotals basePrize platformFeeBps =
        basePrize + optionTotals.sum := by
  have hstakes' : ∀ p ∈ stakerList, p.2 ≤ 2 ^ 64 - 1 := by
    intro p hp
    have h1 : p.2 ≤ (stakerList.map Prod.snd).sum := mem_le_sum_snd _ p hp
    have h2 : optionTotals.getD winnerIndex 0 ≤ optionTotals.sum := getD_le_sum _ _
    omega
  have hok := computePayout_ok_of_bounds optionTotals winnerIndex basePrize
    creatorSharePct backerSharePct platformFeeBps stakerList creator
    (le_trans hbps (by norm_num)) hpct hpool hT hstakes'
  refine ⟨_, hok, rfl, ?_, ?_, ?_⟩
  · intro p hp
    have hpk : p.1 ∈ stakerList.map Prod.fst := List.mem_map_of_mem _ hp
    have hne : ¬creator = p.1 := fun heq => hcr (heq ▸ hpk)
    have hsh : findAmt (specBackerShares optionTotals winnerIndex basePrize
        platformFeeBps creatorSharePct stakerList) p.1 =
        specBackerPool optionTotals basePrize platformFeeBps creatorSharePct * p.2 /
          optionTotals.getD winnerIndex 0 := by
      have := findAmt_map_of_nodup stakerList
        (fun q => specBackerPool optionTotals basePrize platformFeeBps
          creatorSharePct * q.2 / optionTotals.getD winnerIndex 0) p hp hnd
      simpa [specBackerShares] using this
    rw [findAmt_aggregate, findAmt_append, findAmt_cons, findAmt_cons,
      if_neg hne, if_neg hne, hsh, findAmt_nil]
    omega
  · have h0 : findAmt (specBackerShares optionTotals winnerIndex basePrize
        platformFeeBps creatorSharePct stakerList) creator = 0 :=
      findAmt_not_mem _ _
        ((specBackerShares_keys optionTotals winnerIndex basePrize platformFeeBps
          creatorSharePct stakerList).symm ▸ hcr)
    rw [findAmt_aggregate, findAmt_append, findAmt_cons, findAmt_cons,
      if_pos rfl, if_pos rfl, h0, findAmt_nil]
    omega
  · rw [sumAmounts_aggregate]
    have hS_le : sumAmounts (specBackerShares optionTotals winnerIndex basePrize
        platformFeeBps creatorSharePct stakerList) ≤
        specBackerPool optionTotals basePrize platformFeeBps creatorSharePct := by
      have := sumAmounts_shares_le
        (specBackerPool optionTotals basePrize platformFeeBps creatorSharePct)
        (optionTotals.getD winnerIndex 0) stakerList hT hsum
      simpa [specBackerShares] using this
    have hcA_le : specCreatorAmount optionTotals basePrize platformFeeBps
        creatorSharePct ≤ specNet optionTotals basePrize platformFeeBps := by
      unfold specCreatorAmount
      calc specNet optionTotals basePrize platformFeeBps * creatorSharePct / 100
          ≤ specNet optionTotals basePrize platformFeeBps * 100 / 100 :=
            Nat.div_le_div_right (Nat.mul_le_mul_left _ hpct)
        _ = specNet optionTotals basePrize platformFeeBps :=
            Nat.mul_div_cancel _ (by norm_num)
    have hfee_le : specFee optionTotals basePrize platformFeeBps ≤
        basePrize + optionTotals.sum := by
      unfold specFee specTotalPool
      calc (basePrize + optionTotals.sum) * platformFeeBps / 10000
          ≤ (basePrize + optionTotals.sum) * 10000 / 10000 :=
            Nat.div_le_div_right
              (Nat.mul_le_mul_left _ (le_trans hbps (by norm_num)))
        _ = basePrize + optionTotals.sum := Nat.mul_div_cancel _ (by norm_num)
    have hnet : specNet optionTotals basePrize platformFeeBps =
        basePrize + optionTotals.sum - specFee optionTotals basePrize platformFeeBps :=
      rfl
    have hbp : specBackerPool optionTotals basePrize platformFeeBps creatorSharePct =
        specNet optionTotals basePrize platformFeeBps -
          specCreatorAmount optionTotals basePrize platformFeeBps creatorSharePct :=
      rfl
    simp only [sumAmounts, List.map_cons, List.map_append, List.sum_cons,
      List.sum_append, List.map_nil, List.sum_nil] at *
    omega

/-- C5: when the winning option has aggregate stake zero, the payout is a
refund: the entire `net` (total pool minus platform fee) goes to the
creator as the single recipient, with no backer computation or backer
payments; at the closure level the dispatched transfers are exactly the
platform fee (when nonzero) followed by the creator refund. -/
theorem c5_zero_engagement_refund :
    (∀ (optionTotals : List Nat) (winnerIndex : Nat)
      (basePrize creatorSharePct backerSharePct platformFeeBps : Nat)
      (stakerList : List (Account × Nat)) (creator : Account),
      platformFeeBps ≤ 10000 →
      basePrize + optionTotals.sum ≤ 2 ^ 64 - 1 →
      optionTotals.getD winnerIndex 0 = 0 →
      computePayout optionTotals winnerIndex basePrize creatorSharePct
        backerSharePct platformFeeBps stakerList creator =
        .ok (specFee optionTotals basePrize platformFeeBps,
          [(creator, specNet optionTotals basePrize platformFeeBps)])) ∧
    (∀ (cfg : Config) (st : ContestState) (caller : Account) (now : Nat)
      (st' : ContestState) (tr : List (Account × Nat)),
      close cfg st caller now = .ok (st', tr) →
      st.contest.optionTotals.getD (argmaxIdx st.contest.optionTotals) 0 = 0 →
      cfg.platformFeeBps ≤ 10000 →
      st.contest.basePrize + st.contest.optionTotals.sum ≤ 2 ^ 64 - 1 →
      tr = (if 0 < specFee st.contest.optionTotals st.contest.basePrize
          cfg.platformFeeBps then
        [(cfg.platform, specFee st.contest.optionTotals st.contest.basePrize
          cfg.platformFeeBps)] else []) ++
        [(st.contest.creator, specNet st.contest.optionTotals st.contest.basePrize
          cfg.platformFeeBps)]) := by
  constructor
  · intro optionTotals winnerIndex basePrize creatorSharePct backerSharePct
      platformFeeBps stakerList creator hbps hpool hT0
    exact computePayout_refund optionTotals winnerIndex basePrize creatorSharePct
      backerSharePct platformFeeBps stakerList creator hbps hpool hT0
  · intro cfg st caller now st' tr h hT0 hbps hpool
    obtain ⟨_, _, _, _, feeAmount, outs, hcp, htr, _⟩ :=
      close_ok_elim cfg st caller now st' tr h
    have hrf := computePayout_refund st.contest.optionTotals
      (argmaxIdx st.contest.optionTotals) st.contest.basePrize
      st.contest.creatorSharePct st.contest.backerSharePct cfg.platformFeeBps
      (winnerStakers st.stakes (argmaxIdx st.contest.optionTotals))
      st.contest.creator hbps hpool hT0
    rw [hcp] at hrf
    injection hrf with hpair
    injection hpair with hfee houts
    rw [htr, ← hfee, ← houts]

/-- C9: the payout computation never aborts: it is a total function whose
only failure mode is the typed `ComputationError` produced by an
overflow-checked arithmetic step, and on inputs within the configured
`u64`-scale financial bounds it always succeeds. -/
theorem c9_payout_never_aborts :
    (∀ (optionTotals : List Nat) (winnerIndex : Nat)
      (basePrize creatorSharePct backerSharePct platformFeeBps : Nat)
      (stakerList : List (Account × Nat)) (creator : Account) (e : CoreError),
      computePayout optionTotals winnerIndex basePrize creatorSharePct
        backerSharePct platformFeeBps stakerList creator = .error e →
      e = .computation) ∧
    (∀ (optionTotals : List Nat) (winnerIndex : Nat)
      (basePrize creatorSharePct backerSharePct platformFeeBps : Nat)
      (stakerList : List (Account × Nat)) (creator : Account),
      platformFeeBps ≤ 10000 → creatorSharePct ≤ 100 →
      basePrize + optionTotals.sum ≤ 2 ^ 64 - 1 →
      (∀ p ∈ stakerList, p.2 ≤ 2 ^ 64 - 1) →
      ∃ feeAmount outs,
        computePayout optionTotals winnerIndex basePrize creatorSharePct
          backerSharePct platformFeeBps stakerList creator =
          .ok (feeAmount, outs)) := by
  constructor
  · intro optionTotals winnerIndex basePrize creatorSharePct backerSharePct
      platformFeeBps stakerList creator e h
    exact computePayout_error_eq optionTotals winnerIndex basePrize creatorSharePct
      backerSharePct platformFeeBps stakerList creator e h
  · intro optionTotals winnerIndex basePrize creatorSharePct backerSharePct
      platformFeeBps stakerList creator hbps hpct hpool hstakes
    by_cases hT0 : optionTotals.getD winnerIndex 0 = 0
    · exact ⟨_, _, computePayout_refund optionTotals winnerIndex basePrize
        creatorSharePct backerSharePct platformFeeBps stakerList creator hbps
        hpool hT0⟩
    · exact ⟨_, _, computePayout_ok_of_bounds optionTotals winnerIndex basePrize
        creatorSharePct backerSharePct platformFeeBps stakerList creator hbps hpct
        hpool (Nat.pos_of_ne_zero hT0) hstakes⟩

/-- C1: every execution of closure commits the payout-done flag and the
zeroed distributable balance to persisted state strictly before any
external transfer: at each point of the closure sequence where a transfer
is dispatched, the state already has `payout_done = true` and balance `0`;
no closure execution issues a transfer while the flag is false or the
balance nonzero. -/
theorem c1_commit_before_any_transfer
    (cfg : Config) (st : ContestState) (caller : Account) (now : Nat)
    (tr : List CloseEvent) (h : closeTrace cfg st caller now = .ok tr)
    (i : Nat) (a : Account) (n : Nat)
    (ht : tr.getD i CloseEvent.setClosed = CloseEvent.transfer a n) :
    (runEvents st (tr.take i)).1.contest.payoutDone = true ∧
    (runEvents st (tr.take i)).1.contest.balance = 0 := by
  obtain ⟨L, hL⟩ := closeTrace_ok_shape cfg st caller now tr h
  have hsh : tr = CloseEvent.setWinner (argmaxIdx st.contest.optionTotals) ::
      CloseEvent.setPayoutDone :: CloseEvent.zeroBalance ::
      (L.map (fun p => CloseEvent.transfer p.1 p.2) ++ [CloseEvent.setClosed]) := by
    rw [hL]; simp
  subst hsh
  cases i with
  | zero => simp at ht
  | succ i =>
    cases i with
    | zero => simp at ht
    | succ i =>
      cases i with
      | zero => simp at ht
      | succ k =>
        rw [List.take_succ_cons, List.take_succ_cons, List.take_succ_cons]
        rw [runEvents_cons, runEvents_cons, runEvents_cons]
        have hc : committed ((applyEvent ((applyEvent ((applyEvent st
            (CloseEvent.setWinner (argmaxIdx st.contest.optionTotals))).1)
            CloseEvent.setPayoutDone).1) CloseEvent.zeroBalance).1) :=
          ⟨rfl, rfl⟩
        exact runEvents_committed _ _ hc

/-- C2: a second closure after a successful one fails with `StateError` and
dispatches no transfers (no operation on a closed contest dispatches any
transfer or changes the contest record, so exactly one set of transfer
dispatches ever occurs); and in every reachable state, `payout_done = true`
implies the distributable balance is zero and `is_closed = true`. -/
theorem c2_double_close :
    (∀ (cfg : Config) (st : ContestState) (caller : Account) (now : Nat)
      (st' : ContestState) (tr : List (Account × Nat)),
      close cfg st caller now = .ok (st', tr) →
      ∀ (caller2 : Account) (now2 : Nat),
        (caller2 = st'.contest.creator ∨ caller2 = cfg.owner) →
        close cfg st' caller2 now2 = .error .state) ∧
    (∀ (cfg : Config) (st : ContestState) (op : Op) (st' : ContestState)
      (tr : List (Account × Nat)),
      st.contest.isClosed = true → stepOp cfg st op = .ok (st', tr) →
      tr = [] ∧ st'.contest = st.contest) ∧
    (∀ (cfg : Config) (st : ContestState), Reachable cfg st →
      st.contest.payoutDone = true →
      st.contest.balance = 0 ∧ st.contest.isClosed = true) := by
  refine ⟨?_, ?_, ?_⟩
  · intro cfg st caller now st' tr h caller2 now2 hauth
    obtain ⟨_, _, _, _, fee, outs, _, _, hst⟩ := close_ok_elim cfg st caller now st' tr h
    have hcl : st'.contest.isClosed = true := by rw [hst]; rfl
    exact close_again_state_error cfg st' caller2 now2 hauth (Or.inl hcl)
  · intro cfg st op st' tr hcl h
    exact stepOp_closed_contest cfg st op st' tr hcl h
  · intro cfg st hr hpd
    exact (reachable_inv cfg st hr).payoutZero hpd

/-- C4: closure determines exactly one winning option — the
lowest-indexed option of greatest aggregate stake (every option's total is
at most the winner's, and every option strictly before the winner has a
strictly smaller total, so ties resolve to the lowest index);
`winner_index` is unset in every reachable state that is not closed, is set
to exactly this winner at closure, and no operation on a closed contest
ever changes it. -/
theorem c4_winner_determination :
    (∀ (cfg : Config) (st : ContestState) (caller : Account) (now : Nat)
      (st' : ContestState) (tr : List (Account × Nat)),
      close cfg st caller now = .ok (st', tr) →
      st'.contest.winnerIndex = some (argmaxIdx st.contest.optionTotals)) ∧
    (∀ (l : List Nat) (j : Nat), l.getD j 0 ≤ l.getD (argmaxIdx l) 0) ∧
    (∀ (l : List Nat) (j : Nat), j < argmaxIdx l →
      l.getD j 0 < l.getD (argmaxIdx l) 0) ∧
    (∀ (cfg : Config) (st : ContestState), Reachable cfg st →
      st.contest.isClosed = false → st.contest.winnerIndex = none) ∧
    (∀ (cfg : Config) (st : ContestState) (op : Op) (st' : ContestState)
      (tr : List (Account × Nat)),
      st.contest.isClosed = true → stepOp cfg st op = .ok (st', tr) →
      st'.contest.winnerIndex = st.contest.winnerIndex) := by
  refine ⟨?_, ?_, ?_, ?_, ?_⟩
  · intro cfg st caller now st' tr h
    obtain ⟨_, _, _, _, fee, outs, _, _, hst⟩ := close_ok_elim cfg st caller now st' tr h
    rw [hst]; rfl
  · intro l j
    exact getD_le_argmax l j
  · intro l j hj
    exact argmax_lowest l j hj
  · intro cfg st hr hcl
    exact (reachable_inv cfg st hr).winnerUnset hcl
  · intro cfg st op st' tr hcl h
    have := (stepOp_closed_contest cfg st op st' tr hcl h).2
    rw [this]

/-- C7: close succeeds only for the contest creator or the contract owner —
any other caller fails with `AuthorizationError` before any state is
touched; and a close by the creator or the owner before `ends_at` fails
with `StateError`. -/
theorem c7_close_access_control :
    (∀ (cfg : Config) (st : ContestState) (caller : Account) (now : Nat),
      caller ≠ st.contest.creator → caller ≠ cfg.owner →
      close cfg st caller now = .error .authorization) ∧
    (∀ (cfg : Config) (st : ContestState) (caller : Account) (now : Nat),
      (caller = st.contest.creator ∨ caller = cfg.owner) →
      now < st.contest.endsAt → close cfg st caller now = .error .state) ∧
    (∀ (cfg : Config) (st : ContestState) (caller : Account) (now : Nat)
      (st' : ContestState) (tr : List (Account × Nat)),
      close cfg st caller now = .ok (st', tr) →
      caller = st.contest.creator ∨ caller = cfg.owner) := by
  refine ⟨?_, ?_, ?_⟩
  · intro cfg st caller now h1 h2
    exact close_unauthorized cfg st caller now h1 h2
  · intro cfg st caller now hauth ht
    exact close_early cfg st caller now hauth ht
  · intro cfg st caller now st' tr h
    exact (close_ok_elim cfg st caller now st' tr h).1

/-- C8: creating a contest with an option count outside [2, 100], a
duration of zero or above one year, or a nonzero reward outside the
configured financial bounds fails with `ValidationError` (and, the
operation being all-or-nothing, mutates no state), while a reward of
exactly zero is explicitly allowed and creation succeeds when all other
bounds hold. -/
theorem c8_create_validation :
    (∀ (cfg : Config) (caller : Account) (now : Nat) (p : CreateParams)
      (attached storageCost : Nat),
      p.optionCount < 2 ∨ MAX_OPTIONS_PER_CONTEST < p.optionCount →
      create cfg caller now p attached storageCost = .error .validation) ∧
    (∀ (cfg : Config) (caller : Account) (now : Nat) (p : CreateParams)
      (attached storageCost : Nat),
      p.durationMinutes = 0 ∨ MAX_DURATION_MINUTES < p.durationMinutes →
      create cfg caller now p attached storageCost = .error .validation) ∧
    (∀ (cfg : Config) (caller : Account) (now : Nat) (p : CreateParams)
      (attached storageCost : Nat),
      p.basePrize ≠ 0 → p.basePrize < cfg.minReward ∨ cfg.maxReward < p.basePrize →
      create cfg caller now p attached storageCost = .error .validation) ∧
    (∀ (cfg : Config) (caller : Account) (now : Nat) (p : CreateParams)
      (attached storageCost : Nat),
      2 ≤ p.optionCount → p.optionCount ≤ MAX_OPTIONS_PER_CONTEST →
      0 < p.durationMinutes → p.durationMinutes ≤ MAX_DURATION_MINUTES →
      p.basePrize = 0 → p.creatorSharePct + p.backerSharePct = 100 →
      storageCost ≤ attached →
      ∃ st, create cfg caller now p attached storageCost = .ok st) := by
  refine ⟨?_, ?_, ?_, ?_⟩
  · intro cfg caller now p attached storageCost h
    unfold create
    rw [if_pos h]
  · intro cfg caller now p attached storageCost h
    unfold create
    by_cases h1 : p.optionCount < 2 ∨ MAX_OPTIONS_PER_CONTEST < p.optionCount
    · rw [if_pos h1]
    · rw [if_neg h1, if_pos h]
  · intro cfg caller now p attached storageCost hnz h
    unfold create
    by_cases h1 : p.optionCount < 2 ∨ MAX_OPTIONS_PER_CONTEST < p.optionCount
    · rw [if_pos h1]
    · rw [if_neg h1]
      by_cases h2 : p.durationMinutes = 0 ∨ MAX_DURATION_MINUTES < p.durationMinutes
      · rw [if_pos h2]
      · rw [if_neg h2, if_pos ⟨hnz, h⟩]
  · intro cfg caller now p attached storageCost h1 h2 h3 h4 h5 h6 h7
    unfold create
    rw [if_neg (by push_neg; exact ⟨h1, h2⟩)]
    rw [if_neg (by push_neg; exact ⟨Nat.pos_iff_ne_zero.mp h3, h4⟩)]
    rw [if_neg (fun hh => hh.1 h5)]
    rw [if_neg (fun hh => hh h6)]
    rw [if_neg (by omega)]
    exact ⟨_, rfl⟩

/-- C10: the participant cap is enforced only against first-time
participants: the voting contract's cap is 100,000,000 distinct voters and
the bounty market's cap is 150 participants; at the cap, a stake from an
account that already has an entry still succeeds (it may switch options)
without growing `total_participants`, while a stake from an account with
no prior entry fails with `ValidationError`. -/
theorem c10_participant_cap :
    MAX_VOTERS_PER_POLL = 100000000 ∧ MAX_PARTICIPANTS_PER_BOUNTY = 150 ∧
    (∀ (cfg : Config) (st : ContestState) (caller : Account)
      (now optionIndex amount : Nat) (prior : StakeEntry),
      optionIndex < st.contest.optionTotals.length →
      st.contest.isClosed = false → now < st.contest.endsAt →
      st.contest.isPublic = true → amount ≠ 0 →
      findStake st.stakes caller = some prior →
      cfg.participantCap ≤ st.contest.totalParticipants →
      ∃ st', stake cfg st caller now optionIndex amount = .ok st' ∧
        st'.contest.totalParticipants = st.contest.totalParticipants) ∧
    (∀ (cfg : Config) (st : ContestState) (caller : Account)
      (now optionIndex amount : Nat),
      optionIndex < st.contest.optionTotals.length →
      st.contest.isClosed = false → now < st.contest.endsAt →
      st.contest.isPublic = true → amount ≠ 0 →
      findStake st.stakes caller = none →
      cfg.participantCap ≤ st.contest.totalParticipants →
      stake cfg st caller now optionIndex amount = .error .validation) := by
  refine ⟨rfl, rfl, ?_, ?_⟩
  · intro cfg st caller now optionIndex amount prior hlen hcl hnow hpub hamt hf hcap
    unfold stake
    rw [if_neg (Nat.not_le.mpr hlen)]
    rw [if_neg (by simp [hcl]; omega)]
    rw [if_neg (by intro hh; rw [hpub] at hh; simp at hh)]
    rw [if_neg hamt, hf]
    exact ⟨_, rfl, rfl⟩
  · intro cfg st caller now optionIndex amount hlen hcl hnow hpub hamt hf hcap
    unfold stake
    rw [if_neg (Nat.not_le.mpr hlen)]
    rw [if_neg (by simp [hcl]; omega)]
    rw [if_neg (by intro hh; rw [hpub] at hh; simp at hh)]
    rw [if_neg hamt, hf, if_pos hcap]

/-- C6: in every reachable state the sum of the contest's option totals
equals the sum of all active stake amounts; and a participant with an
existing entry who stakes again on another option is left with exactly one
`StakeEntry` carrying the new option and amount, the old option's total
reduced by the prior amount, the new option's total increased by the new
amount, and `total_participants` unchanged. -/
theorem c6_ledger_invariant :
    (∀ (cfg : Config) (st : ContestState), Reachable cfg st →
      st.contest.optionTotals.sum = (st.stakes.map (fun p => p.2.amount)).sum) ∧
    (∀ (cfg : Config) (st : ContestState) (caller : Account)
      (now optionIndexB amount : Nat) (prior : StakeEntry) (st' : ContestState),
      Inv st →
      findStake st.stakes caller = some prior →
      stake cfg st caller now optionIndexB amount = .ok st' →
      findStake st'.stakes caller = some ⟨optionIndexB, amount, now⟩ ∧
      (st'.stakes.map Prod.fst).count caller = 1 ∧
      (prior.optionIndex ≠ optionIndexB →
        st'.contest.optionTotals.getD prior.optionIndex 0 =
          st.contest.optionTotals.getD prior.optionIndex 0 - prior.amount ∧
        st'.contest.optionTotals.getD optionIndexB 0 =
          st.contest.optionTotals.getD optionIndexB 0 + amount) ∧
      st'.contest.totalParticipants = st.contest.totalParticipants) := by
  constructor
  · intro cfg st hr
    exact totals_sum_eq_stakes_sum st (reachable_inv cfg st hr)
  · intro cfg st caller now optionIndexB amount prior st' hinv hf h
    unfold stake at h
    by_cases h1 : st.contest.optionTotals.length ≤ optionIndexB
    · rw [if_pos h1] at h; simp at h
    · rw [if_neg h1] at h
      by_cases h2 : st.contest.isClosed = true ∨ st.contest.endsAt ≤ now
      · rw [if_pos h2] at h; simp at h
      · rw [if_neg h2] at h
        by_cases h3 : st.contest.isPublic = false ∧ caller ∉ st.whitelist
        · rw [if_pos h3] at h; simp at h
        · rw [if_neg h3] at h
          by_cases h4 : amount = 0
          · rw [if_pos h4] at h; simp at h
          · rw [if_neg h4] at h
            rw [hf] at h
            simp only [Except.ok.injEq] at h
            subst h
            push_neg at h1
            have hmem := findStake_some_mem st.stakes caller prior hf
            have hio : prior.optionIndex < st.contest.optionTotals.length :=
              hinv.idxBound _ hmem
            refine ⟨?_, ?_, ?_, rfl⟩
            · exact findStake_setStake_self st.stakes caller _
            · have hkeys := setStake_keys_of_found st.stakes caller prior
                ⟨optionIndexB, amount, now⟩ hf
              dsimp only
              rw [hkeys]
              exact List.count_eq_one_of_mem hinv.nodupKeys
                (List.mem_map_of_mem Prod.fst hmem)
            · intro hne
              dsimp only
              constructor
              · rw [getD_set_ne _ _ _ _ hne]
                rw [getD_set_self _ _ _ hio]
              · rw [getD_set_self _ _ _ (by simpa [List.length_set] using h1)]
                rw [getD_set_ne _ _ _ _ (fun hh => hne hh.symm)]

/-! ### Concrete demonstration states -/

/-- Demonstration configuration. -/
def demoConfig : Config :=
  { owner := "owner", platform := "platform", platformFeeBps := 500,
    minReward := 1, maxReward := 1000000, participantCap := 150 }

/-- Demonstration creation parameters: two options, ten minutes, base
prize 100, 90/10 split, public. -/
def demoParams : CreateParams :=
  { optionCount := 2, durationMinutes := 10, basePrize := 100,
    creatorSharePct := 90, backerSharePct := 10, isPublic := true }

/-- Fallback state for projecting out of `Except` in demonstrations. -/
def blankState : ContestState :=
  { contest :=
    { creator := ""
      optionTotals := []
      basePrize := 0
      creatorSharePct := 0
      backerSharePct := 0
      isPublic := true
      createdAt := 0
      endsAt := 0
      isClosed := false
      payoutDone := false
      winnerIndex := none
      totalParticipants := 0
      balance := 0 }
    stakes := []
    whitelist := [] }

/-- Project the state out of a creation or stake result. -/
def stateOf (e : Except CoreError ContestState) : ContestState :=
  match e with
  | .ok v => v
  | .error _ => blankState

/-- Contest freshly created by carol. -/
def demoSt0 : ContestState := stateOf (create demoConfig "carol" 0 demoParams 100 0)

/-- After alice stakes 5 on option 0. -/
def demoSt1 : ContestState := stateOf (stake demoConfig demoSt0 "alice" 1 0 5)

/-- After alice switches her 5 to option 1. -/
def demoSt2 : ContestState := stateOf (stake demoConfig demoSt1 "alice" 2 1 5)

/-- Result of carol closing the contest at expiry. -/
def demoCloseRes : Except CoreError (ContestState × List (Account × Nat)) :=
  close demoConfig demoSt2 "carol" 600000000000

/-- The closed contest state. -/
def demoSt3 : ContestState :=
  match demoCloseRes with
  | .ok v => v.1
  | .error _ => blankState

/-- The transfers dispatched by the closure. -/
def demoTr : List (Account × Nat) :=
  match demoCloseRes with
  | .ok v => v.2
  | .error _ => []

/-- The closure micro-step sequence of the demonstration contest. -/
def demoTrace : List CloseEvent :=
  match closeTrace demoConfig demoSt2 "carol" 600000000000 with
  | .ok tr => tr
  | .error _ => []

/-- Result of carol closing the untouched zero-stake contest. -/
def demoZeroRes : Except CoreError (ContestState × List (Account × Nat)) :=
  close demoConfig demoSt0 "carol" 600000000000

/-- The closed zero-stake contest state. -/
def demoZeroSt : ContestState :=
  match demoZeroRes with
  | .ok v => v.1
  | .error _ => blankState

/-- The transfers of the zero-stake closure. -/
def demoZeroTr : List (Account × Nat) :=
  match demoZeroRes with
  | .ok v => v.2
  | .error _ => []

/-- Configuration with the documented financial bounds of the voting
contract (minimum reward 0.1 NEAR in yocto). -/
def c8Config : Config :=
  { owner := "owner", platform := "platform", platformFeeBps := 500,
    minReward := 100000000000000000000000,
    maxReward := 100000000000000000000000000000000, participantCap := 150 }

/-- Configuration at the bounty-market participant cap. -/
def capConfig : Config :=
  { owner := "owner", platform := "platform", platformFeeBps := 500,
    minReward := 1, maxReward := 1000000,
    participantCap := MAX_PARTICIPANTS_PER_BOUNTY }

/-- A contest that has reached the participant cap, alice being its one
recorded staker (the cap counter is what the contract consults). -/
def capState : ContestState :=
  { contest :=
    { creator := "carol"
      optionTotals := [5, 0]
      basePrize := 0
      creatorSharePct := 90
      backerSharePct := 10
      isPublic := true
      createdAt := 0
      endsAt := 1000
      isClosed := false
      payoutDone := false
      winnerIndex := none
      totalParticipants := 150
      balance := 5 }
    stakes := [("alice", ⟨0, 5, 0⟩)]
    whitelist := [] }

/-! ### Witnesses -/

/-- C1 witness: in the demonstration closure, the event at index 3 is the
platform-fee transfer, and the state persisted strictly before it already
has the payout-done flag set and the balance zeroed. -/
theorem c1_witness :
    demoTrace.getD 3 CloseEvent.setClosed = CloseEvent.transfer "platform" 5 ∧
    (runEvents demoSt2 (demoTrace.take 3)).1.contest.payoutDone = true ∧
    (runEvents demoSt2 (demoTrace.take 3)).1.contest.balance = 0 :=
  ⟨rfl, c1_commit_before_any_transfer demoConfig demoSt2 "carol" 600000000000
    demoTrace rfl 3 "platform" 5 rfl⟩

/-- C2 witness: closing the demonstration contest a second time fails with
`StateError`. -/
theorem c2_witness :
    close demoConfig demoSt3 "carol" 600000000000 = .error .state :=
  c2_double_close.1 demoConfig demoSt2 "carol" 600000000000 demoSt3 demoTr rfl
    "carol" 600000000000 (Or.inl rfl)

/-- C3 witness: winning total 15 (backers 10 and 5), `net = 30`,
`creator_share_pct = 90` yields creator 27, backer payments 2 and 1. -/
theorem c3_witness :
    computePayout [15] 0 15 90 10 0 [("a", 10), ("b", 5)] "c" =
      .ok (0, [("c", 27), ("a", 2), ("b", 1)]) ∧
    (∃ outs,
      computePayout [15] 0 15 90 10 0 [("a", 10), ("b", 5)] "c" =
        .ok (specFee [15] 15 0, outs) ∧
      specFee [15] 15 0 = (15 + [15].sum) * 0 / 10000 ∧
      (∀ p ∈ [(("a" : Account), 10), ("b", 5)], findAmt outs p.1 =
        specBackerPool [15] 15 0 90 * p.2 / [15].getD 0 0) ∧
      findAmt outs "c" = specCreatorAmount [15] 15 0 90 +
        (specBackerPool [15] 15 0 90 -
          sumAmounts (specBackerShares [15] 0 15 0 90 [("a", 10), ("b", 5)])) ∧
      sumAmounts outs + specFee [15] 15 0 = 15 + [15].sum) :=
  ⟨rfl, c3_proportional_split [15] 0 15 90 10 0 [("a", 10), ("b", 5)] "c"
    (by norm_num) (by norm_num) (by norm_num) (by norm_num) (by decide) (by decide)
    (by decide)⟩

/-- C4 witness: the demonstration closure records winner index 1, the
option with the greater total. -/
theorem c4_witness : demoSt3.contest.winnerIndex = some 1 :=
  (c4_winner_determination.1 demoConfig demoSt2 "carol" 600000000000 demoSt3
    demoTr rfl).trans rfl

/-- C5 witness: a contest with base prize 100, zero stakes and
`platform_fee_bps = 500` pays 95 to the creator and 5 to the platform. -/
theorem c5_witness :
    computePayout [0, 0] 0 100 90 10 500 [] "carol" = .ok (5, [("carol", 95)]) ∧
    demoZeroTr = [("platform", 5), ("carol", 95)] :=
  ⟨(c5_zero_engagement_refund.1 [0, 0] 0 100 90 10 500 [] "carol"
      (by norm_num) (by decide) rfl).trans rfl,
    (c5_zero_engagement_refund.2 demoConfig demoSt0 "carol" 600000000000
      demoZeroSt demoZeroTr rfl rfl (by decide) (by decide)).trans rfl⟩

/-- C6 witness: alice stakes 5 on option 0 then switches to option 1;
afterwards she holds exactly one `StakeEntry` `(1, 5)`, the totals moved
from `[5, 0]` to `[0, 5]`, `total_participants` is unchanged, and the
ledger equation holds. -/
theorem c6_witness :
    demoSt2.contest.optionTotals.sum =
      (demoSt2.stakes.map (fun p => p.2.amount)).sum ∧
    findStake demoSt2.stakes "alice" = some ⟨1, 5, 2⟩ ∧
    (demoSt2.stakes.map Prod.fst).count "alice" = 1 ∧
    demoSt2.contest.totalParticipants = demoSt1.contest.totalParticipants := by
  have r0 : Reachable demoConfig demoSt0 :=
    Reachable.created "carol" 0 demoParams 100 0 demoSt0 rfl
  have r1 : Reachable demoConfig demoSt1 :=
    Reachable.step demoSt0 (Op.stakeOp "alice" 1 0 5) demoSt1 [] r0 rfl
  have r2 : Reachable demoConfig demoSt2 :=
    Reachable.step demoSt1 (Op.stakeOp "alice" 2 1 5) demoSt2 [] r1 rfl
  have h2 := c6_ledger_invariant.2 demoConfig demoSt1 "alice" 2 1 5 ⟨0, 5, 1⟩
    demoSt2 (reachable_inv demoConfig demoSt1 r1) rfl rfl
  exact ⟨c6_ledger_invariant.1 demoConfig demoSt2 r2, h2.1, h2.2.1, h2.2.2.2⟩

/-- C7 witness: a third party closing fails with `AuthorizationError`; the
creator closing before expiry fails with `StateError`. -/
theorem c7_witness :
    close demoConfig demoSt0 "mallory" 600000000000 = .error .authorization ∧
    close demoConfig demoSt0 "carol" 5 = .error .state :=
  ⟨c7_close_access_control.1 demoConfig demoSt0 "mallory" 600000000000
      (by decide) (by decide),
    c7_close_access_control.2.1 demoConfig demoSt0 "carol" 5 (Or.inl rfl) (by decide)⟩

/-- C8 witness: 101 options, a 400-day duration (576000 minutes), and a
nonzero reward below the configured minimum are each rejected with
`ValidationError`, while a zero reward creates successfully. -/
theorem c8_witness :
    create c8Config "carol" 0 { demoParams with optionCount := 101 } 100 0 =
      .error .validation ∧
    create c8Config "carol" 0 { demoParams with durationMinutes := 576000 } 100 0 =
      .error .validation ∧
    create c8Config "carol" 0 { demoParams with basePrize := 5 } 100 0 =
      .error .validation ∧
    (∃ st, create c8Config "carol" 0 { demoParams with basePrize := 0 } 0 0 =
      .ok st) :=
  ⟨c8_create_validation.1 c8Config "carol" 0 _ 100 0 (Or.inr (by decide)),
    c8_create_validation.2.1 c8Config "carol" 0 _ 100 0 (Or.inr (by decide)),
    c8_create_validation.2.2.1 c8Config "carol" 0 _ 100 0 (by decide)
      (Or.inl (by decide)),
    c8_create_validation.2.2.2 c8Config "carol" 0 _ 0 0 (by decide) (by decide)
      (by decide) (by decide) rfl rfl (by decide)⟩

/-- C9 witness: a base prize beyond `u128` is rejected with the typed
`ComputationError`; an in-bounds payout computation succeeds. -/
theorem c9_witness :
    computePayout [] 0 (2 ^ 128) 90 10 500 [] "c" = .error .computation ∧
    (∃ feeAmount outs,
      computePayout [10] 0 100 90 10 500 [("a", 10)] "c" = .ok (feeAmount, outs)) :=
  ⟨rfl, c9_payout_never_aborts.2 [10] 0 100 90 10 500 [("a", 10)] "c"
    (by norm_num) (by norm_num) (by decide) (by decide)⟩

/-- C10 witness: at the bounty cap of 150 participants, alice (who already
has an entry) can still switch options, while bob (no entry) is rejected
with `ValidationError`. -/
theorem c10_witness :
    (∃ st', stake capConfig capState "alice" 1 1 5 = .ok st' ∧
      st'.contest.totalParticipants = capState.contest.totalParticipants) ∧
    stake capConfig capState "bob" 1 1 5 = .error .validation :=
  ⟨c10_participant_cap.2.2.1 capConfig capState "alice" 1 1 5 ⟨0, 5, 0⟩
      (by decide) rfl (by decide) rfl (by decide) rfl (by decide),
    c10_participant_cap.2.2.2 capConfig capState "bob" 1 1 5
      (by decide) rfl (by decide) rfl (by decide) rfl (by decide)⟩

end GroupWeave
